import Mathlib

/-!
A verification development for the core of a package build orchestrator
(cargo).  The definitions below are shallow embeddings of the corresponding
Rust functions, translated file by file:

* `src/cargo/core/compiler/custom_build.rs` — the build-script protocol
  (`BuildOutput::parse`, `BuildOutput::parse_rustc_flags`,
  `BuildOutput::parse_rustc_env`, `build_work`, `prepare`, `build_map`);
* `src/cargo/ops/cargo_rustc/fingerprint.rs` — the fingerprint engine
  (`Fingerprint::resolve`, `calculate`, `is_fresh`, `calculate_target_mtime`,
  `prepare_target`);
* `src/cargo/core/package_id.rs` / `interning.rs` — interned identifiers;
* `src/cargo/core/compiler/unit_graph.rs` — unit-graph serialization.

Rust `CargoResult<T>` becomes `Except String T` (the `String` is the
formatted error message); fallible filesystem access becomes an explicit
environment record.  Paths are modelled as strings with `/` as separator.
-/

namespace Cargo

/-! ### Build-script output: data model (custom_build.rs) -/

/-- Contains the parsed output of a custom build script
(struct `BuildOutput` in custom_build.rs). -/
structure BuildOutput where
  /-- Paths to pass to rustc with the `-L` flag -/
  library_paths : List String
  /-- Names and link kinds of libraries, suitable for the `-l` flag -/
  library_links : List String
  /-- Various `--cfg` flags to pass to the compiler -/
  cfgs : List String
  /-- Additional environment variables to run the compiler with. -/
  env : List (String × String)
  /-- Metadata to pass to the immediate dependencies -/
  metadata : List (String × String)
  /-- Paths to trigger a rerun of this build script. -/
  rerun_if_changed : List String
  /-- Environment variables which, when changed, will cause a rebuild. -/
  rerun_if_env_changed : List String
  /-- Warnings generated by this build. -/
  warnings : List String
deriving DecidableEq, Repr

/-- The all-empty accumulator the parser starts from (the eight `Vec::new()`
locals at the top of `BuildOutput::parse`). -/
def BuildOutput.empty : BuildOutput :=
  ⟨[], [], [], [], [], [], [], []⟩

/-- Rust `format!("build script of \x7b\x7d", pkg_name)` — the `whence` string used in
every error message of the parser. -/
def whenceOf (pkg_name : String) : String :=
  "build script of `" ++ pkg_name ++ "`"

/-! ### String primitives

Rust's `str::trim`, `str::split` and friends, re-implemented by structural
recursion over the character list so that every definition evaluates inside
the kernel.  Whitespace is `Char.isWhitespace` (space, tab, CR, LF). -/

/-- Drop leading whitespace (`str::trim_left`). -/
def trimCharsLeft : List Char → List Char
  | [] => []
  | c :: cs => if c.isWhitespace then trimCharsLeft cs else c :: cs

/-- Rust `str::trim`: drop whitespace from both ends. -/
def strTrim (s : String) : String :=
  ⟨(trimCharsLeft (trimCharsLeft s.toList).reverse).reverse⟩

/-- Rust `str::trim_right`: drop trailing whitespace. -/
def strTrimRight (s : String) : String :=
  ⟨(trimCharsLeft s.toList.reverse).reverse⟩

/-- Rust `str::split(p)`: split at every character satisfying `p`, keeping empty
pieces (n separators yield n+1 pieces). -/
def splitChars (p : Char → Bool) : List Char → List (List Char)
  | [] => [[]]
  | c :: cs =>
    if p c then [] :: splitChars p cs
    else
      match splitChars p cs with
      | [] => [[c]]
      | w :: ws => (c :: w) :: ws

/-- String-level `str::split(p)`. -/
def strSplit (p : Char → Bool) (s : String) : List String :=
  (splitChars p s.toList).map (fun l => ⟨l⟩)

/-- Rust `str::ends_with(c)` for a one-character pattern. -/
def endsWithChar (c : Char) (s : String) : Bool :=
  s.toList.getLast? = some c

/-- Rust `String::pop`: remove the last character. -/
def strDropLast (s : String) : String :=
  ⟨s.toList.dropLast⟩

/-- Drop the first `n` characters (`&line[pos..]` in character terms). -/
def strDrop (s : String) (n : Nat) : String :=
  ⟨s.toList.drop n⟩

/-- Concatenation of a list of strings with a separator character. -/
def joinSep (sep : Char) : List String → String
  | [] => ""
  | [s] => s
  | s :: rest => s ++ ⟨[sep]⟩ ++ joinSep sep rest

/-! ### `BuildOutput::parse_rustc_flags` -/

/-- The token stream of `parse_rustc_flags`:
`value.split(|c| c.is_whitespace()).filter(|w| w.chars().any(|c| !c.is_whitespace()))`. -/
def whitespaceTokens (value : String) : List String :=
  (strSplit Char.isWhitespace value).filter
    (fun w => w.toList.any (fun c => !c.isWhitespace))

/-- Error message of the `bail!` for a token other than `-l`/`-L`. -/
def rustcFlagsDisallowedMsg (whence value : String) : String :=
  "Only `-l` and `-L` flags are allowed in " ++ whence ++ ": `" ++ value ++ "`"

/-- Error message of the `bail!` for a trailing flag with no value. -/
def rustcFlagsNoValueMsg (whence value : String) : String :=
  "Flag in rustc-flags has no value in " ++ whence ++ ": `" ++ value ++ "`"

/-- The `while let Some(flag) = flags_iter.next()` loop of
`BuildOutput::parse_rustc_flags`, returning `(library_paths, library_links)`
in order of appearance. -/
def parseRustcFlagsLoop (whence value : String) :
    List String → Except String (List String × List String)
  | [] => .ok ([], [])
  | [flag] =>
    if flag ≠ "-l" ∧ flag ≠ "-L" then
      .error (rustcFlagsDisallowedMsg whence value)
    else
      .error (rustcFlagsNoValueMsg whence value)
  | flag :: v :: rest =>
    if flag ≠ "-l" ∧ flag ≠ "-L" then
      .error (rustcFlagsDisallowedMsg whence value)
    else do
      let (paths, links) ← parseRustcFlagsLoop whence value rest
      if flag = "-l" then
        .ok (paths, v :: links)
      else
        .ok (v :: paths, links)

/-- Function `BuildOutput::parse_rustc_flags(value, whence)`: trims the value,
tokenizes on whitespace and accepts only `-l`/`-L` pairs. -/
def BuildOutput.parse_rustc_flags (value whence : String) :
    Except String (List String × List String) :=
  let value := strTrim value
  parseRustcFlagsLoop whence value (whitespaceTokens value)

/-! ### `BuildOutput::parse_rustc_env` -/

/-- Splits a string at the FIRST occurrence of `c`, returning the part before
and, when `c` occurs, the part after — the model of Rust's `splitn(2, c)`
(whose iterator yields one element when `c` is absent, two otherwise). -/
def breakAtChar (c : Char) : List Char → List Char × Option (List Char)
  | [] => ([], none)
  | x :: xs =>
    if x = c then ([], some xs)
    else
      let (pre, rest) := breakAtChar c xs
      (x :: pre, rest)

/-- String-level wrapper for `splitn(2, c)`. -/
def splitn2 (c : Char) (s : String) : String × Option String :=
  let (pre, rest) := breakAtChar c s.toList
  (⟨pre⟩, rest.map (fun l => ⟨l⟩))

/-- Function `BuildOutput::parse_rustc_env(value, whence)`. -/
def BuildOutput.parse_rustc_env (value whence : String) :
    Except String (String × String) :=
  match splitn2 '=' value with
  | (n, some v) => .ok (n, v)
  | (_, none) =>
    .error ("Variable rustc-env has no value in " ++ whence ++ ": " ++ value)

/-! ### `BuildOutput::parse` -/

/-- Rust `Path::new(val).strip_prefix(root)` on the string model of paths: removes
`root` when `val` is `root` itself or starts with `root ++ "/"`. -/
def stripRootPre (root val : String) : Option String :=
  if val = root then some ""
  else if (root ++ "/").toList.isPrefixOf val.toList then
    some (strDrop val (root.length + 1))
  else none

/-- Rust `root_output.join(path)` on the string model of paths. -/
def pathJoin (root rest : String) : String :=
  if rest = "" then root else root ++ "/" ++ rest

/-- The `path` closure of `BuildOutput::parse`: paths under the OUT_DIR root
recorded at generation time are remapped onto the current root; all other
values pass through unchanged. -/
def remapPath (root_output_when_generated root_output val : String) : String :=
  match stripRootPre root_output_when_generated val with
  | some rest => pathJoin root_output rest
  | none => val

/-- Error message of the `bail!` for a `cargo:`-prefixed line that does not
have the shape `key=value`. -/
def wrongOutputMsg (whence line : String) : String :=
  "Wrong output in " ++ whence ++ ": `" ++ line ++ "`"

/-- One iteration of the `for line in input.split(b'\n')` loop of
`BuildOutput::parse`: trims the line, skips anything that does not start with
`cargo:`, splits the rest at the first `=`, and dispatches on the key. -/
def parseLineStep (whence root_output_when_generated root_output : String)
    (acc : BuildOutput) (rawLine : String) : Except String BuildOutput :=
  let line := strTrim rawLine
  let (first, data) := splitn2 ':' line
  if first ≠ "cargo" then
    -- skip this line since it doesn't start with "cargo:"
    .ok acc
  else
    match data with
    | none => .ok acc
    | some data =>
      match splitn2 '=' data with
      | (_, none) =>
        -- line started with `cargo:` but didn't match `key=value`
        .error (wrongOutputMsg whence line)
      | (key, some b) =>
        let value := strTrimRight b
        let path := remapPath root_output_when_generated root_output
        match key with
        | "rustc-flags" => do
          let (paths, links) ← BuildOutput.parse_rustc_flags value whence
          .ok { acc with library_links := acc.library_links ++ links,
                         library_paths := acc.library_paths ++ paths }
        | "rustc-link-lib" =>
          .ok { acc with library_links := acc.library_links ++ [value] }
        | "rustc-link-search" =>
          .ok { acc with library_paths := acc.library_paths ++ [path value] }
        | "rustc-cfg" =>
          .ok { acc with cfgs := acc.cfgs ++ [value] }
        | "rustc-env" => do
          let kv ← BuildOutput.parse_rustc_env value whence
          .ok { acc with env := acc.env ++ [kv] }
        | "warning" =>
          .ok { acc with warnings := acc.warnings ++ [value] }
        | "rerun-if-changed" =>
          .ok { acc with rerun_if_changed := acc.rerun_if_changed ++ [path value] }
        | "rerun-if-env-changed" =>
          .ok { acc with rerun_if_env_changed := acc.rerun_if_env_changed ++ [value] }
        | _ =>
          .ok { acc with metadata := acc.metadata ++ [(key, value)] }

/-- The parsing loop threaded over the line list. -/
def parseLines (whence root_output_when_generated root_output : String) :
    BuildOutput → List String → Except String BuildOutput
  | acc, [] => .ok acc
  | acc, l :: rest => do
    let acc ← parseLineStep whence root_output_when_generated root_output acc l
    parseLines whence root_output_when_generated root_output acc rest

/-- Function `BuildOutput::parse(input, pkg_name, root_output_when_generated,
root_output)`.  The byte input is modelled as its list of `\n`-separated
lines after UTF-8 decoding (the source skips undecodable lines exactly like
lines that do not start with `cargo:`). -/
def BuildOutput.parse (lines : List String)
    (pkg_name root_output_when_generated root_output : String) :
    Except String BuildOutput :=
  parseLines (whenceOf pkg_name) root_output_when_generated root_output
    BuildOutput.empty lines

/-! ### Fingerprint engine (fingerprint.rs): data model -/

/-- Freshness of a compile unit (`util::Freshness`). -/
inductive Freshness where
  | fresh
  | dirty
deriving DecidableEq, Repr

/-- Parsed contents of a compiler-emitted dep-info file: the compiler cwd
prepended (NUL-terminated) by `append_current_dir`, followed by the file's
lines. -/
structure DepInfo where
  cwd : String
  lines : List String
deriving DecidableEq, Repr

/-- The filesystem environment the fingerprint engine probes: `mtime p` is
`fs::stat(p).modified` (`none` when `stat` fails), `depinfo p` is the parsed
result of opening and reading a dep-info file at `p` (`none` when the open or
the cwd-prefix read fails). -/
structure FileSys where
  mtime : String → Option Nat
  depinfo : String → Option DepInfo

/-- Rust `fs::unlink(p)`: afterwards both `stat` and `open` fail on `p`. -/
def FileSys.unlink (fs : FileSys) (p : String) : FileSys where
  mtime q := if q = p then none else fs.mtime q
  depinfo q := if q = p then none else fs.depinfo q

/-- Rust `enum Personal`: the per-package half of a fingerprint — either a string
known up front, or an mtime probe of a dep-info file deferred to `resolve`. -/
inductive Personal where
  | known (s : String)
  | unknown (p : String)
deriving DecidableEq, Repr

/-- Rust `struct Fingerprint { extra, deps, personal }`. -/
inductive Fingerprint where
  | mk (extra : String) (deps : List Fingerprint) (personal : Personal)

/-- The `extra` field. -/
def Fingerprint.extra : Fingerprint → String
  | .mk e _ _ => e

/-- The `deps` field. -/
def Fingerprint.deps : Fingerprint → List Fingerprint
  | .mk _ d _ => d

/-- The `personal` field. -/
def Fingerprint.personal : Fingerprint → Personal
  | .mk _ _ p => p

/-- Models `util::short_hash(&(known, extra, deps))`: a deterministic pure
function of the hashed tuple.  The concrete hash is irrelevant to the claims,
so the tuple is encoded injectively instead of run through SipHash. -/
def short_hash (known extra : String) (deps : List String) : String :=
  joinSep '\x01' (known :: extra :: deps)

/-- Resolution of the personal component inside `Fingerprint::resolve`: a
known string is returned as is, an mtime probe stats the recorded path. -/
def Personal.resolve (fs : FileSys) : Personal → Option String
  | .known s => some s
  | .unknown p => (fs.mtime p).map toString

mutual

/-- Method `Fingerprint::resolve()`: resolve all dependency fingerprints, sort the
resulting strings, resolve the personal component, and hash the triple.
`CargoResult` failure is modelled as `none`. -/
def Fingerprint.resolve (fs : FileSys) : Fingerprint → Option String
  | .mk extra deps personal => do
    let ds ← resolveDeps fs deps
    let ds := ds.mergeSort
    let known ← personal.resolve fs
    some (short_hash known extra ds)

/-- The `self.deps.iter().map(|s| s.resolve()).collect()` traversal. -/
def resolveDeps (fs : FileSys) : List Fingerprint → Option (List String)
  | [] => some []
  | f :: rest => do
    let s ← f.resolve fs
    let ss ← resolveDeps fs rest
    some (s :: ss)

end

/-! ### `calculate_target_mtime` -/

/-- Position (in characters) of the first occurrence of `": "` in a line —
`line.find_str(": ")`. -/
def findColonSpace : List Char → Option Nat
  | [] => none
  | ':' :: ' ' :: _ => some 0
  | _ :: rest => (findColonSpace rest).map (· + 1)

/-- The dep-entry token list of the first dep-info line:
`deps.split(' ').map(|s| s.trim()).filter(|s| !s.is_empty())`. -/
def depTokens (entries : String) : List String :=
  ((strSplit (fun c => c = ' ') entries).map strTrim).filter (· ≠ "")

/-- The stat loop of `calculate_target_mtime` over the dep tokens, merging
backslash continuations as it goes.  Result: `none` models the
`deps.next().unwrap()` panic on a trailing continuation, `some false` the
early `return Ok(None)` for a missing or newer input, `some true` a loop that
ran to completion. -/
def depStatLoop (fs : FileSys) (cwd : String) (mtime : Nat) :
    List String → Option Bool
  | [] => some true
  | f :: rest =>
    if endsWithChar '\\' f then
      match rest with
      | [] => none
      | next :: rest' =>
        depStatLoop fs cwd mtime ((strDropLast f ++ " " ++ next) :: rest')
    else
      match fs.mtime (pathJoin cwd f) with
      | some m => if m ≤ mtime then depStatLoop fs cwd mtime rest else some false
      | none => some false
termination_by l => l.length

/-- The continuation-merged file list referenced by a dep-info line — the
sequence of paths the stat loop visits (`none` again models the `unwrap`
panic). -/
def depFiles : List String → Option (List String)
  | [] => some []
  | f :: rest =>
    if endsWithChar '\\' f then
      match rest with
      | [] => none
      | next :: rest' => depFiles ((strDropLast f ++ " " ++ next) :: rest')
    else (depFiles rest).map (f :: ·)
termination_by l => l.length

/-- Function `calculate_target_mtime(dep_info)`: `Ok(Some(mtime))` when the dep-info
file parses and every referenced file is no newer than it, `Ok(None)` when
the file is missing, unparsable as a line, or some input is newer or missing,
and `Err` when the stat of an opened file fails or the line has no `": "`. -/
def calculate_target_mtime (fs : FileSys) (dep_info : String) :
    Except String (Option Nat) :=
  match fs.depinfo dep_info with
  | none => .ok none
  | some info =>
    match info.lines.head? with
    | none => .ok none
    | some line =>
      match fs.mtime dep_info with
      | none => .error ("failed to stat `" ++ dep_info ++ "`")
      | some mtime =>
        match findColonSpace line.toList with
        | none => .error ("dep-info not in an understood format: " ++ dep_info)
        | some pos =>
          match depStatLoop fs info.cwd mtime (depTokens (strDrop line (pos + 2))) with
          | none => .error "panicked at calling unwrap on a None value"
          | some true => .ok (some mtime)
          | some false => .ok none

/-! ### `is_fresh` and `prepare_target` -/

/-- State of the stored fingerprint file at `loc` as `is_fresh` sees it:
`File::open` may fail, the opened file's `read_to_string` may fail, or the
contents come back. -/
inductive StoredFile where
  | missing
  | unreadable
  | contents (s : String)
deriving DecidableEq, Repr

/-- Function `is_fresh(loc, new_fingerprint)`: `Ok(false)` when the stored file cannot
be opened or the new fingerprint does not resolve; `Err` only from reading an
already-opened file; otherwise compares the two strings. -/
def is_fresh (loc : StoredFile) (fs : FileSys) (new_fingerprint : Fingerprint) :
    Except String Bool :=
  match loc with
  | .missing => .ok false
  | .unreadable => .error "failed to read the stored fingerprint"
  | .contents old_fingerprint =>
    match new_fingerprint.resolve fs with
    | none => .ok false
    | some s => .ok (old_fingerprint = s)

/-- The freshness decision of `prepare_target`: the target is reported
`Fresh` exactly when `is_fresh` held AND no expected output artifact is
missing (outputs are only enumerated for non-doc targets; the collected
binaries/tests/libraries lists do not affect the decision and are omitted). -/
def prepare_target (stored : StoredFile) (fs : FileSys)
    (fingerprint : Fingerprint) (is_doc : Bool) (root : String)
    (target_filenames : List String) (exists_on_disk : String → Bool) :
    Except String Freshness := do
  let fresh ← is_fresh stored fs fingerprint
  let missing_outputs :=
    if is_doc then false
    else target_filenames.any (fun f => !exists_on_disk (pathJoin root f))
  .ok (if fresh && !missing_outputs then .fresh else .dirty)

/-! ### The personal component of `calculate` -/

/-- Function `use_dep_info(pkg, target)`: mtimes are used only for non-doc targets of
path-source packages. -/
def use_dep_info (is_doc is_path : Bool) : Bool :=
  !is_doc && is_path

/-- The personal-component computation at the end of `calculate` (lines
177–191 of fingerprint.rs).  `is_path` states whether the package's source is
path-based; `pkg_fingerprint` is the result of `calculate_pkg_fingerprint`
(the source's pre-computed content hash), which is only consulted on the
immutable branch.  Returns the `Personal` value together with the filesystem
after the `fs::unlink` performed on a stale dep-info file. -/
def calculate_personal (fs : FileSys) (is_doc is_path : Bool)
    (dep_info : String) (pkg_fingerprint : Except String String) :
    Except String (Personal × FileSys) :=
  if use_dep_info is_doc is_path then
    match calculate_target_mtime fs dep_info with
    | .error e => .error e
    | .ok (some i) => .ok (.known (toString i), fs)
    | .ok none => .ok (.unknown dep_info, fs.unlink dep_info)
  else
    pkg_fingerprint.map (fun s => (.known s, fs))

/-! ### Build-script execution and replay (custom_build.rs) -/

/-- Rust `enum Kind { Host, Target }` of the compiler context. -/
inductive Kind where
  | host
  | target
deriving DecidableEq, Repr

/-- First-match association lookup (the behaviour of `HashMap::get` over the
insert-at-front representation below). -/
def assoc {κ α : Type} [DecidableEq κ] : List (κ × α) → κ → Option α
  | [], _ => none
  | (k, a) :: rest, key => if k = key then some a else assoc rest key

/-- Rust `BuildMap = HashMap<(PackageId, Kind), BuildOutput>`; the package id is
carried as its string form.  Insertion prepends, so `assoc` sees the newest
binding first, as a `HashMap::insert` overwrite would. -/
def BuildMap : Type := List ((String × Kind) × BuildOutput)

/-- Method `BuildState::insert(id, kind, output)`. -/
def BuildMap.insert (m : BuildMap) (id : String) (kind : Kind)
    (output : BuildOutput) : BuildMap :=
  ((id, kind), output) :: m

/-- Lookup in the build map. -/
def BuildMap.find (m : BuildMap) (id : String) (kind : Kind) :
    Option BuildOutput :=
  assoc m (id, kind)

/-- Function `BuildOutput::parse_file(path, ..)`: read the persisted `output` file
(modelled as `none` when unreadable, otherwise its line list) then parse. -/
def BuildOutput.parse_file (file : Option (List String))
    (pkg_name root_output_when_generated root_output : String) :
    Except String BuildOutput :=
  match file with
  | none => .error "failed to read the persisted build-script output"
  | some lines =>
    BuildOutput.parse lines pkg_name root_output_when_generated root_output

/-- The `prev_output` computed while preparing `build_work` (line 237):
`BuildOutput::parse_file(..).ok()`. -/
def prevOutput (file : Option (List String))
    (pkg_name prev_root_output root_output : String) : Option BuildOutput :=
  (BuildOutput.parse_file file pkg_name prev_root_output root_output).toOption

/-- Tail of the dirty work of `build_work` after the script ran: persist the
stdout to the `output` file, parse it with the current root on both sides,
and publish the parsed output into the shared build state.  Returns the new
build state together with the persisted file contents. -/
def dirtyWorkPublish (stdout : List String) (pkg_name root_output : String)
    (id : String) (kind : Kind) (state : BuildMap) :
    Except String (BuildMap × List String) :=
  (BuildOutput.parse stdout pkg_name root_output root_output).map
    (fun parsed => (state.insert id kind parsed, stdout))

/-- The fresh work of `build_work` (lines 347–357): replay `prev_output` when
it parsed at prepare time, otherwise parse the persisted file now; publish
the result into the shared build state. -/
def freshWorkPublish (prev_output : Option BuildOutput)
    (file : Option (List String)) (pkg_name prev_root_output root_output : String)
    (id : String) (kind : Kind) (state : BuildMap) : Except String BuildMap :=
  match prev_output with
  | some output => .ok (state.insert id kind output)
  | none =>
    (BuildOutput.parse_file file pkg_name prev_root_output root_output).map
      (state.insert id kind ·)

/-! ### Build-script overrides (`prepare` / `build_map`) -/

/-- A `RunCustomBuild` unit as the override logic sees it: the package, its
declared `links` name, and the compile kind. -/
structure ScriptUnit where
  pkg_id : String
  links : Option String
  kind : Kind
deriving DecidableEq, Repr

/-- The slice of `Context` that `prepare` and `build_map` consult. -/
structure BuildCx where
  /-- `BuildState::overrides`, keyed by `(links-name, kind)`. -/
  overrides : List ((String × Kind) × BuildOutput)
  /-- `BuildState::outputs`. -/
  outputs : BuildMap
  /-- `cx.build_script_overridden`. -/
  build_script_overridden : List (String × Kind)

/-- The override block at the head of `build_map`'s recursive `build` (lines
563–578): when the unit's package declares `links = l` and an override is
configured for `(l, kind)`, record the `(PackageId, kind)` key as overridden
and insert the override's declared output into the shared build state. -/
def buildMapOverrideStep (cx : BuildCx) (u : ScriptUnit) : BuildCx :=
  match u.links with
  | none => cx
  | some l =>
    match assoc cx.overrides (l, u.kind) with
    | none => cx
    | some output =>
      { cx with
        build_script_overridden :=
          (u.pkg_id, u.kind) :: cx.build_script_overridden,
        outputs := cx.outputs.insert u.pkg_id u.kind output }

/-- The script-execution half of the work prepared for a `RunCustomBuild`
unit: what `build_work` would return, or `Work::noop()` twice. -/
inductive ScriptWork where
  | noop
  | runScript (pkg_id : String)
  | replayOutput (pkg_id : String)
deriving DecidableEq, Repr

/-- The work-selection at the head of `custom_build::prepare` (lines 89–95):
an overridden script gets `(Work::noop(), Work::noop())`, any other script
gets the real dirty/fresh work of `build_work` (the fingerprint bookkeeping
chained afterwards is shared by both cases and omitted). -/
def prepareScriptWork (cx : BuildCx) (u : ScriptUnit) :
    ScriptWork × ScriptWork :=
  if cx.build_script_overridden.contains (u.pkg_id, u.kind) then
    (.noop, .noop)
  else
    (.runScript u.pkg_id, .replayOutput u.pkg_id)

/-! ### Interned package identifiers (package_id.rs / interning.rs) -/

/-- Type `SourceId` as `PackageIdInner` compares it: URL, source-kind tag and the
optional precise locator.  `full_eq` is structural equality on all three
fields. -/
structure SourceIdFull where
  url : String
  kind : String
  precise : Option String
deriving DecidableEq, Repr

/-- Rust `struct PackageIdInner { name, version, source_id }`; its `PartialEq` is
full equality (precise locator included), modelled by structural equality. -/
structure PackageIdInner where
  name : String
  version : String
  source_id : SourceIdFull
deriving DecidableEq, Repr

/-- Index of the first element equal to `y` — the element `HashSet::get`
would return, as a position into the heap modelled as a list. -/
def cacheFind {α : Type} [DecidableEq α] : List α → α → Option Nat
  | [], _ => none
  | x :: xs, y => if x = y then some 0 else (cacheFind xs y).map (· + 1)

/-- Function `PackageId::wrap(inner)` over an explicit `PACKAGE_ID_CACHE`: return the
already-interned instance when an equal one is stored, otherwise leak a new
box (append to the heap).  A `PackageId` is the index of (the pointer to) its
inner value; the possibly-extended cache is returned alongside. -/
def PackageId.wrap (cache : List PackageIdInner) (inner : PackageIdInner) :
    Nat × List PackageIdInner :=
  match cacheFind cache inner with
  | some i => (i, cache)
  | none => (cache.length, cache ++ [inner])

/-- Dereference a `PackageId`: the inner value its pointer designates, which
the accessors `name()`, `version()` and `source_id()` read field by field. -/
def PackageId.getInner (cache : List PackageIdInner) (pid : Nat) :
    Option PackageIdInner :=
  cache.get? pid

/-- Caches reachable in one process: start empty, grow only through
`PackageId::wrap`. -/
inductive CacheReach : List PackageIdInner → Prop where
  | nil : CacheReach []
  | step (c : List PackageIdInner) (x : PackageIdInner) :
      CacheReach c → CacheReach (PackageId.wrap c x).2

/-! ### Unit-graph serialization (unit_graph.rs) -/

/-- Traversal (`collect`) over `Option`: the model of building a vector where each
element's construction can panic/fail (structural recursion, so concrete
instances evaluate in the kernel). -/
def omapM {α β : Type} (f : α → Option β) : List α → Option (List β)
  | [] => some []
  | x :: xs => do
    let y ← f x
    let ys ← omapM f xs
    some (y :: ys)

/-- The JSON documents `emit_serialized_unit_graph` can produce. -/
inductive Json where
  | str (s : String)
  | nat (n : Nat)
  | bool (b : Bool)
  | arr (elems : List Json)
  | obj (fields : List (String × Json))

/-- A compile `Unit` as the serializer reads it; the non-string-like fields
(`target`, `profile`, …) are carried as their serialized forms.  The derived
`Ord` of the Rust struct is lexicographic in field order. -/
structure UnitG where
  pkg_id : String
  target : String
  profile : String
  platform : String
  mode : String
  features : List String
  is_std : Bool
deriving DecidableEq, Repr

/-- Rust `struct UnitDep` (the `unit_for` field is not serialized and does not
order differently-keyed map entries, so it is omitted). -/
structure UnitDepG where
  unit : UnitG
  extern_crate_name : String
  public : Bool
  noprelude : Bool
deriving DecidableEq, Repr

/-- The lexicographic sort key realizing `Unit`'s derived `Ord`. -/
def UnitG.key (u : UnitG) :
    String ×ₗ String ×ₗ String ×ₗ String ×ₗ String ×ₗ List String ×ₗ Bool :=
  toLex (u.pkg_id, toLex (u.target, toLex (u.profile, toLex (u.platform,
    toLex (u.mode, toLex (u.features, u.is_std))))))

instance : LinearOrder UnitG := by
  apply LinearOrder.lift' UnitG.key
  intro a b h
  simp only [UnitG.key, toLex_inj, Prod.mk.injEq] at h
  obtain ⟨h1, h2, h3, h4, h5, h6, h7⟩ := h
  cases a; cases b; simp_all

/-- The lexicographic sort key realizing `UnitDep`'s derived `Ord`. -/
def UnitDepG.key (d : UnitDepG) : UnitG ×ₗ String ×ₗ Bool ×ₗ Bool :=
  toLex (d.unit, toLex (d.extern_crate_name, toLex (d.public, d.noprelude)))

instance : LinearOrder UnitDepG := by
  apply LinearOrder.lift' UnitDepG.key
  intro a b h
  simp only [UnitDepG.key, toLex_inj, Prod.mk.injEq] at h
  obtain ⟨h1, h2, h3, h4⟩ := h
  cases a; cases b; simp_all

/-- The comparison `units.sort_unstable()` sorts by: derived `Ord` on the
`(&Unit, &Vec<UnitDep>)` pairs, the unit compared first. -/
def unitPairLE (a b : UnitG × List UnitDepG) : Bool :=
  decide (toLex a ≤ toLex b)

/-- Struct `SerializedUnitDep`: fields `index` and `extern_crate_name` always,
`public`/`noprelude` only when on nightly (`None` is skipped by serde).
`none` as overall result models the `indices[..]` panic on a dangling
dependency. -/
def serializeUnitDep (is_nightly : Bool) (idx : UnitG → Option Nat)
    (d : UnitDepG) : Option Json := do
  let i ← idx d.unit
  let tail :=
    if is_nightly then
      [("public", Json.bool d.public), ("noprelude", Json.bool d.noprelude)]
    else []
  some (Json.obj ([("index", Json.nat i),
                   ("extern_crate_name", Json.str d.extern_crate_name)] ++ tail))

/-- Struct `SerializedUnit` in serde field order; `is_std` is skipped when false. -/
def serializeUnit (u : UnitG) (deps : List Json) : Json :=
  Json.obj ([("pkg_id", Json.str u.pkg_id),
             ("target", Json.str u.target),
             ("profile", Json.str u.profile),
             ("platform", Json.str u.platform),
             ("mode", Json.str u.mode),
             ("features", Json.arr (u.features.map Json.str))]
            ++ (if u.is_std then [("is_std", Json.bool true)] else [])
            ++ [("dependencies", Json.arr deps)])

/-- Rust `const VERSION: u32 = 1`. -/
def VERSION : Nat := 1

/-- Function `emit_serialized_unit_graph(root_units, unit_graph)`: sort the map
entries, index units by their position in the sorted order, serialize roots
and units, and emit `{version, units, roots}`.  The unit graph (a `HashMap`)
is given as its entry list in arbitrary iteration order; `none` models the
`indices[..]` panic on a root or dependency that is not a key of the map. -/
def emit_serialized_unit_graph (root_units : List UnitG)
    (unit_graph : List (UnitG × List UnitDepG)) (is_nightly : Bool) :
    Option Json := do
  let units := unit_graph.mergeSort unitPairLE
  let idx := fun u => cacheFind (units.map Prod.fst) u
  let roots ← omapM idx root_units
  let ser_units ← omapM (fun p => do
      let deps ← omapM (serializeUnitDep is_nightly idx) p.2
      some (serializeUnit p.1 deps)) units
  some (Json.obj [("version", Json.nat VERSION),
                  ("units", Json.arr ser_units),
                  ("roots", Json.arr (roots.map Json.nat))])

/-! ### Spec-side predicates used by the theorems -/

/-- Spec-side reading of the rustc-flags grammar: the token list chunked into
`(flag, value)` pairs; `none` when a trailing flag has no value token. -/
def flagValuePairs : List String → Option (List (String × String))
  | [] => some []
  | [_] => none
  | f :: v :: rest => (flagValuePairs rest).map (fun ps => (f, v) :: ps)

/-- Spec-side predicate: `s` begins with the literal prefix `pre`. -/
def beginsWithStr (pre s : String) : Prop :=
  ∃ d, s.toList = pre.toList ++ d

/-- Substring containment: `sub` occurs somewhere inside `s`. -/
def containsStr (sub s : String) : Prop :=
  ∃ pre post, s = pre ++ sub ++ post

/-- The recognized directive keys of `BuildOutput::parse`. -/
def recognizedKeys : List String :=
  ["rustc-flags", "rustc-link-lib", "rustc-link-search", "rustc-cfg",
   "rustc-env", "warning", "rerun-if-changed", "rerun-if-env-changed"]

/-- The output artifacts whose existence `prepare_target` checks: none for a
doc target, the target's filenames otherwise. -/
def expectedOutputs (is_doc : Bool) (target_filenames : List String) :
    List String :=
  if is_doc then [] else target_filenames

/-- A concrete filesystem: a dep-info file at `/t/dep` (mtime 5, cwd `/c`,
one line `lib.d: a.rs`) and the referenced input `/c/a.rs` at mtime 3. -/
def fsWitness : FileSys where
  mtime p :=
    if p = "/t/dep" then some 5 else if p = "/c/a.rs" then some 3 else none
  depinfo p :=
    if p = "/t/dep" then some ⟨"/c", ["lib.d: a.rs"]⟩ else none

/-- Spec-side shape of a serialized dependency: a JSON object that has
`index` and `extern_crate_name` fields, every `index` field holding a valid
index into the `units` array. -/
def depJsonOk (n : Nat) (d : Json) : Prop :=
  ∃ fields, d = Json.obj fields ∧
    "index" ∈ fields.map Prod.fst ∧
    "extern_crate_name" ∈ fields.map Prod.fst ∧
    ∀ g ∈ fields, g.1 = "index" → ∃ i, g.2 = Json.nat i ∧ i < n

/-- Spec-side shape of a serialized unit: a JSON object containing `pkg_id`,
`target`, `profile`, `platform`, `mode`, `features` and a `dependencies`
array of well-shaped dependency objects. -/
def unitJsonOk (n : Nat) (u : Json) : Prop :=
  ∃ fields, u = Json.obj fields ∧
    (∀ name ∈ (["pkg_id", "target", "profile", "platform", "mode",
        "features", "dependencies"] : List String),
      name ∈ fields.map Prod.fst) ∧
    ∀ g ∈ fields, g.1 = "dependencies" →
      ∃ deps, g.2 = Json.arr deps ∧ ∀ d ∈ deps, depJsonOk n d

/-! ## Theorems

### C4: `parse_rustc_flags` accepts exactly alternating flag/value tokens -/



lemma ok_bind {ε α β : Type} (a : α) (f : α → Except ε β) :
    (do let x ← (Except.ok a : Except ε α); f x) = f a := rfl

lemma error_bind {ε α β : Type} (e : ε) (f : α → Except ε β) :
    (do let x ← (Except.error e : Except ε α); f x) = Except.error e := rfl

lemma parseRustcFlagsLoop_ok_iff (whence value : String) (ts : List String)
    (paths links : List String) :
    parseRustcFlagsLoop whence value ts = .ok (paths, links) ↔
      ∃ ps, flagValuePairs ts = some ps ∧
        (∀ p ∈ ps, p.1 = "-l" ∨ p.1 = "-L") ∧
        links = (ps.filter (fun p => p.1 = "-l")).map Prod.snd ∧
        paths = (ps.filter (fun p => p.1 = "-L")).map Prod.snd := by
  induction ts using flagValuePairs.induct generalizing paths links with
  | case1 =>
    constructor
    · intro h
      simp only [parseRustcFlagsLoop, Except.ok.injEq, Prod.mk.injEq] at h
      exact ⟨[], rfl, by simp, by simp [← h.2], by simp [← h.1]⟩
    · rintro ⟨ps, hps, -, hl, hp⟩
      simp only [flagValuePairs, Option.some.injEq] at hps
      subst hps
      simp only [List.filter_nil, List.map_nil] at hl hp
      simp [parseRustcFlagsLoop, hl, hp]
  | case2 f =>
    constructor
    · intro h
      simp only [parseRustcFlagsLoop] at h
      split at h <;> cases h
    · rintro ⟨ps, hps, -, -, -⟩
      simp [flagValuePairs] at hps
  | case3 f v rest ih =>
    by_cases hflag : f ≠ "-l" ∧ f ≠ "-L"
    · constructor
      · intro h
        simp only [parseRustcFlagsLoop, if_pos hflag] at h
        cases h
      · rintro ⟨ps, hps, hall, -, -⟩
        simp only [flagValuePairs, Option.map_eq_some'] at hps
        rcases hps with ⟨ps', -, rfl⟩
        rcases hall (f, v) (List.mem_cons_self _ _) with h1 | h1
        · exact absurd h1 hflag.1
        · exact absurd h1 hflag.2
    · have hok : f = "-l" ∨ f = "-L" := by
        rcases not_and_or.mp hflag with h1 | h1 <;> rw [not_not] at h1
        · exact Or.inl h1
        · exact Or.inr h1
      constructor
      · intro h
        simp only [parseRustcFlagsLoop, if_neg hflag] at h
        rcases hbind : parseRustcFlagsLoop whence value rest with e | ⟨ps', ls'⟩ <;>
          rw [hbind] at h
        · rw [error_bind] at h
          cases h
        · rw [ok_bind] at h
          rcases (ih ps' ls').mp hbind with ⟨ps, hps, hall, hl, hp⟩
          rcases hok with rfl | rfl
          · rw [if_pos rfl] at h
            cases h
            refine ⟨("-l", v) :: ps, by simp [flagValuePairs, hps], ?_, ?_, ?_⟩
            · intro p hp
              rcases List.mem_cons.mp hp with rfl | hp
              · exact Or.inl rfl
              · exact hall p hp
            · simp [hl]
            · simp [hp]
          · rw [if_neg (by decide : ¬("-L" : String) = "-l")] at h
            cases h
            refine ⟨("-L", v) :: ps, by simp [flagValuePairs, hps], ?_, ?_, ?_⟩
            · intro p hp
              rcases List.mem_cons.mp hp with rfl | hp
              · exact Or.inr rfl
              · exact hall p hp
            · simp [hl]
            · simp [hp]
      · rintro ⟨ps, hps, hall, hl, hp⟩
        simp only [flagValuePairs, Option.map_eq_some'] at hps
        rcases hps with ⟨ps', hps', rfl⟩
        have hrest : parseRustcFlagsLoop whence value rest =
            .ok ((ps'.filter (fun p => p.1 = "-L")).map Prod.snd,
                 (ps'.filter (fun p => p.1 = "-l")).map Prod.snd) :=
          (ih _ _).mpr ⟨ps', hps', fun p hp => hall p (List.mem_cons_of_mem _ hp),
            rfl, rfl⟩
        simp only [parseRustcFlagsLoop, if_neg hflag, hrest]
        rw [ok_bind]
        rcases hok with rfl | rfl
        · rw [if_pos rfl]
          subst hl hp
          simp
        · rw [if_neg (by decide : ¬("-L" : String) = "-l")]
          subst hl hp
          simp

lemma parseRustcFlagsLoop_error (whence value : String) (ts : List String)
    (e : String) (h : parseRustcFlagsLoop whence value ts = .error e) :
    e = rustcFlagsDisallowedMsg whence value ∨
      e = rustcFlagsNoValueMsg whence value := by
  induction ts using flagValuePairs.induct with
  | case1 => cases h
  | case2 f =>
    simp only [parseRustcFlagsLoop] at h
    split at h <;> cases h
    · left; rfl
    · right; rfl
  | case3 f v rest ih =>
    simp only [parseRustcFlagsLoop] at h
    split at h
    · cases h; left; rfl
    · rcases hbind : parseRustcFlagsLoop whence value rest with e' | ⟨ps', ls'⟩ <;>
        rw [hbind] at h
      · rw [error_bind] at h
        cases h
        exact ih hbind
      · rw [ok_bind] at h
        split at h <;> cases h

/-- C4: `parse_rustc_flags` succeeds exactly when the whitespace-separated
tokens of the (trimmed) value form a sequence of `-l`/`-L` flags each
followed by a value token, returning the link names and search paths in
order of appearance; any other flag token, or a trailing flag without a
value, yields an error whose message names the offending content (the whole
trimmed value, which contains the disallowed token). -/
theorem parse_rustc_flags_spec (value whence : String) :
    (∀ paths links,
        BuildOutput.parse_rustc_flags value whence = .ok (paths, links) ↔
          ∃ ps, flagValuePairs (whitespaceTokens (strTrim value)) = some ps ∧
            (∀ p ∈ ps, p.1 = "-l" ∨ p.1 = "-L") ∧
            links = (ps.filter (fun p => p.1 = "-l")).map Prod.snd ∧
            paths = (ps.filter (fun p => p.1 = "-L")).map Prod.snd) ∧
    (∀ e, BuildOutput.parse_rustc_flags value whence = .error e →
        ∃ pre post, e = pre ++ strTrim value ++ post) := by
  constructor
  · intro paths links
    exact parseRustcFlagsLoop_ok_iff whence (strTrim value)
      (whitespaceTokens (strTrim value)) paths links
  · intro e he
    rcases parseRustcFlagsLoop_error whence (strTrim value)
        (whitespaceTokens (strTrim value)) e he with h | h
    · exact ⟨"Only `-l` and `-L` flags are allowed in " ++ whence ++ ": `",
        "`", h⟩
    · exact ⟨"Flag in rustc-flags has no value in " ++ whence ++ ": `",
        "`", h⟩

/-- Witness for C4 at concrete inputs: `-l foo -L /bar` parses into a link
name and a search path in order, and `-aaa` fails with a message naming it. -/
theorem parse_rustc_flags_spec_witness :
    BuildOutput.parse_rustc_flags "-l foo -L /bar" "w" = .ok (["/bar"], ["foo"]) ∧
    (∃ pre post,
      "Only `-l` and `-L` flags are allowed in w: `-aaa`" =
        pre ++ "-aaa" ++ post) := by
  constructor
  · exact ((parse_rustc_flags_spec "-l foo -L /bar" "w").1 ["/bar"] ["foo"]).mpr
      ⟨[("-l", "foo"), ("-L", "/bar")], by decide, by decide, by decide, by decide⟩
  · exact (parse_rustc_flags_spec "-aaa" "w").2
      "Only `-l` and `-L` flags are allowed in w: `-aaa`" (by rfl)

/-! ### C3: the line grammar of `BuildOutput::parse` -/



lemma breakAtChar_sound (c : Char) (l : List Char) :
    ∀ pre rest, breakAtChar c l = (pre, some rest) → l = pre ++ c :: rest := by
  induction l with
  | nil => intro pre rest h; simp [breakAtChar] at h
  | cons x xs ih =>
    intro pre rest h
    simp only [breakAtChar] at h
    by_cases hx : x = c
    · rw [if_pos hx] at h
      injection h with h1 h2
      injection h2 with h2
      subst h1
      subst h2
      subst hx
      rfl
    · rw [if_neg hx] at h
      rcases hxs : breakAtChar c xs with ⟨p', _ | r'⟩ <;> rw [hxs] at h
      · injection h with h1 h2
        exact Option.noConfusion h2
      · injection h with h1 h2
        injection h2 with h2
        subst h1
        subst h2
        simp [ih _ _ hxs]

lemma breakAtChar_append (c : Char) (pre rest : List Char) (h : c ∉ pre) :
    breakAtChar c (pre ++ c :: rest) = (pre, some rest) := by
  induction pre with
  | nil => simp [breakAtChar]
  | cons x xs ih =>
    have hx : x ≠ c := fun hc => h (hc ▸ List.mem_cons_self x xs)
    have ih' := ih (fun hc => h (List.mem_cons_of_mem x hc))
    simp only [List.cons_append, breakAtChar, if_neg hx, List.append_eq, ih']

lemma splitn2_cargo_of_eq (t d : String)
    (h : splitn2 ':' t = ("cargo", some d)) : beginsWithStr "cargo:" t := by
  unfold splitn2 at h
  rcases hb : breakAtChar ':' t.toList with ⟨pre, r⟩
  rw [hb] at h
  obtain ⟨h1, h2⟩ := Prod.mk.injEq .. ▸ h
  rcases r with _ | r
  · cases h2
  · have hpre : pre = "cargo".toList := congrArg String.toList h1
    have := breakAtChar_sound ':' t.toList pre r hb
    exact ⟨r, by rw [this, hpre]; rfl⟩

lemma splitn2_of_shape (c : Char) (pre post : String) (h : c ∉ pre.toList) :
    splitn2 c ⟨pre.toList ++ c :: post.toList⟩ = (pre, some post) := by
  unfold splitn2
  rw [show (String.mk (pre.toList ++ c :: post.toList)).toList =
        pre.toList ++ c :: post.toList from rfl,
    breakAtChar_append c _ _ h]
  rfl

lemma str_ext {s : String} {l : List Char} (h : s.toList = l) : s = ⟨l⟩ := by
  cases s
  cases h
  rfl



lemma containsStr_trans {a b s : String} (h1 : containsStr a s)
    (h2 : containsStr b a) : containsStr b s := by
  rcases h1 with ⟨p, q, rfl⟩
  rcases h2 with ⟨p', q', rfl⟩
  exact ⟨p ++ p', q' ++ q, by simp [String.append_assoc]⟩

lemma whenceOf_contains (pkg_name : String) :
    containsStr pkg_name (whenceOf pkg_name) :=
  ⟨"build script of `", "`", rfl⟩

lemma wrongOutputMsg_contains (whence line : String) :
    containsStr whence (wrongOutputMsg whence line) :=
  ⟨"Wrong output in ", ": `" ++ line ++ "`",
    by simp [wrongOutputMsg, String.append_assoc]⟩

lemma rustcFlagsDisallowedMsg_contains (whence value : String) :
    containsStr whence (rustcFlagsDisallowedMsg whence value) :=
  ⟨"Only `-l` and `-L` flags are allowed in ", ": `" ++ value ++ "`",
    by simp [rustcFlagsDisallowedMsg, String.append_assoc]⟩

lemma rustcFlagsNoValueMsg_contains (whence value : String) :
    containsStr whence (rustcFlagsNoValueMsg whence value) :=
  ⟨"Flag in rustc-flags has no value in ", ": `" ++ value ++ "`",
    by simp [rustcFlagsNoValueMsg, String.append_assoc]⟩

lemma parse_rustc_flags_error_contains (value whence e : String)
    (h : BuildOutput.parse_rustc_flags value whence = .error e) :
    containsStr whence e := by
  rcases parseRustcFlagsLoop_error whence (strTrim value)
      (whitespaceTokens (strTrim value)) e h with rfl | rfl
  · exact rustcFlagsDisallowedMsg_contains whence (strTrim value)
  · exact rustcFlagsNoValueMsg_contains whence (strTrim value)

lemma parse_rustc_env_error_contains (value whence e : String)
    (h : BuildOutput.parse_rustc_env value whence = .error e) :
    containsStr whence e := by
  unfold BuildOutput.parse_rustc_env at h
  rcases hs : splitn2 '=' value with ⟨n, _ | v⟩ <;> rw [hs] at h
  · injection h with h
    exact ⟨"Variable rustc-env has no value in ", ": " ++ value,
      by simp [← h, String.append_assoc]⟩
  · cases h

lemma parseLineStep_skip (whence rg r : String) (acc : BuildOutput)
    (l : String) (h : ¬ beginsWithStr "cargo:" (strTrim l)) :
    parseLineStep whence rg r acc l = .ok acc := by
  simp only [parseLineStep]
  rcases hs : splitn2 ':' (strTrim l) with ⟨first, data⟩
  dsimp only
  by_cases hf : first = "cargo"
  · rw [if_neg (by simp [hf])]
    rcases data with _ | d
    · rfl
    · exact absurd (splitn2_cargo_of_eq (strTrim l) d (hf ▸ hs)) h
  · rw [if_pos hf]

lemma parseLineStep_error_whence (whence rg r : String) (acc : BuildOutput)
    (l e : String) (h : parseLineStep whence rg r acc l = .error e) :
    containsStr whence e := by
  simp only [parseLineStep] at h
  rcases hs : splitn2 ':' (strTrim l) with ⟨first, data⟩
  rw [hs] at h
  dsimp only at h
  by_cases hf : first ≠ "cargo"
  · rw [if_pos hf] at h
    cases h
  · rw [if_neg hf] at h
    rcases data with _ | d
    · cases h
    · dsimp only at h
      rcases he : splitn2 '=' d with ⟨key, _ | b⟩ <;> rw [he] at h <;>
        dsimp only at h
      · injection h with h
        exact h ▸ wrongOutputMsg_contains whence (strTrim l)
      · split at h
        · rcases hp : BuildOutput.parse_rustc_flags (strTrimRight b) whence
              with e' | pl <;> rw [hp] at h
          · rw [error_bind] at h
            injection h with h
            exact h ▸ parse_rustc_flags_error_contains _ whence _ hp
          · rw [ok_bind] at h
            cases h
        · cases h
        · cases h
        · cases h
        · rcases hp : BuildOutput.parse_rustc_env (strTrimRight b) whence
              with e' | kv <;> rw [hp] at h
          · rw [error_bind] at h
            injection h with h
            exact h ▸ parse_rustc_env_error_contains _ whence _ hp
          · rw [ok_bind] at h
            cases h
        · cases h
        · cases h
        · cases h
        · cases h



lemma parseLineStep_metadata (whence rg r : String) (acc : BuildOutput)
    (l key value : String)
    (hshape : (strTrim l).toList =
      "cargo:".toList ++ key.toList ++ '=' :: value.toList)
    (hkey : '=' ∉ key.toList) (hnot : key ∉ recognizedKeys) :
    parseLineStep whence rg r acc l =
      .ok { acc with metadata := acc.metadata ++ [(key, strTrimRight value)] } := by
  have hd : strTrim l =
      ⟨"cargo".toList ++ ':' :: (key.toList ++ '=' :: value.toList)⟩ := by
    apply str_ext
    rw [hshape, show ("cargo:".toList : List Char) = "cargo".toList ++ [':'] from rfl]
    simp [List.append_assoc]
  have hs2 : splitn2 ':' (strTrim l) =
      ("cargo", some ⟨key.toList ++ '=' :: value.toList⟩) := by
    rw [hd]
    exact splitn2_of_shape ':' "cargo" ⟨key.toList ++ '=' :: value.toList⟩
      (by decide)
  have hs3 : splitn2 '=' (⟨key.toList ++ '=' :: value.toList⟩ : String) =
      (key, some value) := splitn2_of_shape '=' key value hkey
  simp only [parseLineStep, hs2]
  rw [if_neg (by simp)]
  rw [hs3]
  dsimp only
  split <;> first
    | rfl
    | exact absurd (by decide) hnot

/-- C3 counterexample: the trimmed line `cargo:foo` matches the spec grammar
`^cargo:<key>(=<value>)?$` with the value absent, yet `BuildOutput::parse`
rejects it ("Wrong output") instead of accepting it. -/
theorem parse_bare_key_line_rejected :
    BuildOutput.parse ["cargo:foo"] "pkg" "/r" "/r" =
      .error "Wrong output in build script of `pkg`: `cargo:foo`" := by
  rfl

/-- C3 (amended): a line whose trimmed form does not begin with `cargo:` is
skipped; a trimmed line `cargo:<key>=<value>` whose key is not a recognized
directive is stored as a metadata pair (with the value right-trimmed); and
any parse error message names the package.  (Amendment: a `cargo:`-prefixed
line WITHOUT `=` is malformed and is an error — the `(=<value>)?` option of
the claimed grammar is not accepted.) -/
theorem parse_line_grammar (pkg_name rg r : String) :
    (∀ acc l rest, ¬ beginsWithStr "cargo:" (strTrim l) →
        parseLines (whenceOf pkg_name) rg r acc (l :: rest) =
          parseLines (whenceOf pkg_name) rg r acc rest) ∧
    (∀ acc l rest key value,
        (strTrim l).toList = "cargo:".toList ++ key.toList ++ '=' :: value.toList →
        '=' ∉ key.toList → key ∉ recognizedKeys →
        parseLines (whenceOf pkg_name) rg r acc (l :: rest) =
          parseLines (whenceOf pkg_name) rg r
            { acc with metadata := acc.metadata ++ [(key, strTrimRight value)] }
            rest) ∧
    (∀ lines acc e,
        parseLines (whenceOf pkg_name) rg r acc lines = .error e →
        containsStr pkg_name e) := by
  refine ⟨?_, ?_, ?_⟩
  · intro acc l rest h
    simp only [parseLines, parseLineStep_skip _ _ _ _ _ h, ok_bind]
  · intro acc l rest key value h1 h2 h3
    simp only [parseLines, parseLineStep_metadata _ _ _ _ _ _ _ h1 h2 h3, ok_bind]
  · intro lines
    induction lines with
    | nil => intro acc e h; cases h
    | cons l rest ih =>
      intro acc e h
      simp only [parseLines] at h
      rcases hstep : parseLineStep (whenceOf pkg_name) rg r acc l
          with e' | acc' <;> rw [hstep] at h
      · rw [error_bind] at h
        injection h with h
        exact containsStr_trans
          (h ▸ parseLineStep_error_whence _ _ _ _ _ _ hstep)
          (whenceOf_contains pkg_name)
      · rw [ok_bind] at h
        exact ih acc' e h

/-- Witness for C3 at concrete inputs: a build-log line is skipped, an
unrecognized `cargo:mykey=myval` line becomes metadata, and the error for a
malformed line names the package. -/
theorem parse_line_grammar_witness :
    (parseLines (whenceOf "pkg") "/r" "/r" BuildOutput.empty
        ["hello world"] =
      parseLines (whenceOf "pkg") "/r" "/r" BuildOutput.empty []) ∧
    (parseLines (whenceOf "pkg") "/r" "/r" BuildOutput.empty
        ["cargo:mykey=myval"] =
      parseLines (whenceOf "pkg") "/r" "/r"
        { BuildOutput.empty with metadata := [("mykey", strTrimRight "myval")] }
        []) ∧
    containsStr "pkg" "Wrong output in build script of `pkg`: `cargo:foo`" := by
  refine ⟨?_, ?_, ?_⟩
  · exact (parse_line_grammar "pkg" "/r" "/r").1 BuildOutput.empty
      "hello world" []
      (by
        rintro ⟨d, hd⟩
        exact absurd (congrArg List.head? hd)
          (show ¬ (some 'h' = some 'c') by decide))
  · exact (parse_line_grammar "pkg" "/r" "/r").2.1 BuildOutput.empty
      "cargo:mykey=myval" [] "mykey" "myval" (by decide) (by decide) (by decide)
  · exact (parse_line_grammar "pkg" "/r" "/r").2.2 ["cargo:foo"]
      BuildOutput.empty _ parse_bare_key_line_rejected

/-! ### C10: `is_fresh` is total in the repairable failure cases -/

/-- C10: `is_fresh` returns `Ok(false)` when the stored fingerprint file
cannot be opened and when the new fingerprint cannot be resolved; an error
escapes exactly when an already-opened fingerprint file fails to read. -/
theorem is_fresh_total (fs : FileSys) (fp : Fingerprint) :
    (∀ stored, (∃ e, is_fresh stored fs fp = .error e) ↔ stored = .unreadable) ∧
    is_fresh .missing fs fp = .ok false ∧
    (∀ s, fp.resolve fs = none → is_fresh (.contents s) fs fp = .ok false) := by
  refine ⟨?_, rfl, ?_⟩
  · intro stored
    constructor
    · rintro ⟨e, he⟩
      cases stored with
      | missing => cases he
      | unreadable => rfl
      | contents s =>
        simp only [is_fresh] at he
        rcases hr : fp.resolve fs with _ | r <;> rw [hr] at he <;> simp at he
    · rintro rfl
      exact ⟨_, rfl⟩
  · intro s h
    simp [is_fresh, h]

/-- Witness for C10: a fingerprint whose deferred mtime probe fails resolves
to nothing, and `is_fresh` classifies both the missing-file and the
unresolvable-fingerprint cases as dirty rather than erroring. -/
theorem is_fresh_total_witness :
    (∃ e, is_fresh .unreadable
        ⟨fun _ => none, fun _ => none⟩
        (.mk "e" [] (.unknown "p")) = .error e) ∧
    is_fresh .missing ⟨fun _ => none, fun _ => none⟩
        (.mk "e" [] (.unknown "p")) = .ok false ∧
    is_fresh (.contents "old") ⟨fun _ => none, fun _ => none⟩
        (.mk "e" [] (.unknown "p")) = .ok false := by
  refine ⟨?_, ?_, ?_⟩
  · exact ((is_fresh_total ⟨fun _ => none, fun _ => none⟩
      (.mk "e" [] (.unknown "p"))).1 .unreadable).mpr rfl
  · exact (is_fresh_total ⟨fun _ => none, fun _ => none⟩
      (.mk "e" [] (.unknown "p"))).2.1
  · exact (is_fresh_total ⟨fun _ => none, fun _ => none⟩
      (.mk "e" [] (.unknown "p"))).2.2 "old" (by rfl)

/-! ### C1: the freshness decision of `prepare_target` -/



/-- C1: `prepare_target` reports `Fresh` iff the stored fingerprint file
exists, its contents equal the newly computed fingerprint string, and every
expected output artifact exists on disk; a missing expected output forces
`Dirty` even when the fingerprint strings are equal. -/
theorem prepare_target_fresh_iff (stored : StoredFile) (fs : FileSys)
    (fp : Fingerprint) (is_doc : Bool) (root : String)
    (target_filenames : List String) (exists_on_disk : String → Bool) :
    (prepare_target stored fs fp is_doc root target_filenames exists_on_disk =
        .ok .fresh ↔
      (∃ s, stored = .contents s ∧ fp.resolve fs = some s) ∧
      ∀ f ∈ expectedOutputs is_doc target_filenames,
        exists_on_disk (pathJoin root f) = true) ∧
    (∀ s f, stored = .contents s → fp.resolve fs = some s →
      is_doc = false → f ∈ target_filenames →
      exists_on_disk (pathJoin root f) = false →
      prepare_target stored fs fp is_doc root target_filenames exists_on_disk =
        .ok .dirty) := by
  constructor
  · cases stored with
    | missing =>
      constructor
      · intro h
        simp [prepare_target, is_fresh, ok_bind] at h
      · rintro ⟨⟨s, hs, -⟩, -⟩
        cases hs
    | unreadable =>
      constructor
      · intro h
        simp [prepare_target, is_fresh, error_bind] at h
      · rintro ⟨⟨s, hs, -⟩, -⟩
        cases hs
    | contents s =>
      simp only [prepare_target, is_fresh]
      rcases hr : fp.resolve fs with _ | r
      · constructor
        · intro h
          simp [ok_bind] at h
        · rintro ⟨⟨s', hs', hr'⟩, -⟩
          cases hr'
      · simp only [ok_bind]
        constructor
        · intro h
          by_cases hsr : s = r
          · subst hsr
            refine ⟨⟨s, rfl, rfl⟩, ?_⟩
            intro f hf
            rcases hdoc : is_doc with _ | _
            · rcases hany : target_filenames.any
                  (fun f => !exists_on_disk (pathJoin root f)) with _ | _
              · have := List.any_eq_false.mp hany f
                  (by simpa [expectedOutputs, hdoc] using hf)
                simpa using this
              · simp [hdoc, hany] at h
            · simp [expectedOutputs, hdoc] at hf
          · simp [hsr] at h
        · rintro ⟨⟨s', hs', hr'⟩, hall⟩
          injection hs' with hs'
          subst hs'
          injection hr' with hr'
          subst hr'
          rcases hdoc : is_doc with _ | _
          · have hany : target_filenames.any
                (fun f => !exists_on_disk (pathJoin root f)) = false := by
              refine List.any_eq_false.mpr ?_
              intro f hf
              have := hall f (by simpa [expectedOutputs, hdoc] using hf)
              simp [this]
            simp [hdoc, hany]
          · simp [hdoc]
  · rintro s f rfl hres rfl hmem hmiss
    simp only [prepare_target, is_fresh, hres, ok_bind]
    have hany : target_filenames.any
        (fun f => !exists_on_disk (pathJoin root f)) = true :=
      List.any_eq_true.mpr ⟨f, hmem, by simp [hmiss]⟩
    simp [hany]

/-- Witness for C1 at concrete inputs: with a stored fingerprint equal to the
newly computed one but a missing output file, the unit is reported `Dirty`;
with the output present it is reported `Fresh`. -/
theorem prepare_target_fresh_iff_witness :
    prepare_target (.contents (short_hash "k" "e" []))
        ⟨fun _ => none, fun _ => none⟩ (.mk "e" [] (.known "k"))
        false "r" ["f"] (fun _ => false) = .ok .dirty ∧
    prepare_target (.contents (short_hash "k" "e" []))
        ⟨fun _ => none, fun _ => none⟩ (.mk "e" [] (.known "k"))
        false "r" ["f"] (fun _ => true) = .ok .fresh := by
  have hres : (Fingerprint.mk "e" [] (.known "k")).resolve
      ⟨fun _ => none, fun _ => none⟩ = some (short_hash "k" "e" []) := by
    simp [Fingerprint.resolve, resolveDeps, Personal.resolve]
  constructor
  · exact (prepare_target_fresh_iff _ _ _ _ _ _ _).2 (short_hash "k" "e" []) "f"
      rfl hres rfl (by simp) rfl
  · exact (prepare_target_fresh_iff _ _ _ _ _ _ _).1.mpr
      ⟨⟨short_hash "k" "e" [], rfl, hres⟩, by simp [expectedOutputs]⟩

/-! ### C2: `Fingerprint::resolve` hashes the sorted dependency strings -/

lemma some_bind {α β : Type} (a : α) (f : α → Option β) :
    (do let x ← some a; f x) = f a := rfl

lemma none_bind {α β : Type} (f : α → Option β) :
    (do let x ← (none : Option α); f x) = none := rfl

lemma resolveDeps_perm (fs : FileSys) {l l' : List Fingerprint}
    (h : l.Perm l') :
    (resolveDeps fs l = none ∧ resolveDeps fs l' = none) ∨
    (∃ ds ds', resolveDeps fs l = some ds ∧ resolveDeps fs l' = some ds' ∧
      ds.Perm ds') := by
  induction h with
  | nil => exact Or.inr ⟨[], [], rfl, rfl, .nil⟩
  | cons x h ih =>
    rcases hx : x.resolve fs with _ | s
    · exact Or.inl ⟨by simp [resolveDeps, hx, none_bind],
        by simp [resolveDeps, hx, none_bind]⟩
    · rcases ih with ⟨h1, h2⟩ | ⟨ds, ds', h1, h2, hp⟩
      · exact Or.inl ⟨by simp [resolveDeps, hx, h1, some_bind, none_bind],
          by simp [resolveDeps, hx, h2, some_bind, none_bind]⟩
      · exact Or.inr ⟨s :: ds, s :: ds',
          by simp [resolveDeps, hx, h1, some_bind],
          by simp [resolveDeps, hx, h2, some_bind], hp.cons s⟩
  | swap x y t =>
    rcases hx : x.resolve fs with _ | sx
    · exact Or.inl ⟨by simp [resolveDeps, hx, some_bind, none_bind],
        by simp [resolveDeps, hx, some_bind, none_bind]⟩
    · rcases hy : y.resolve fs with _ | sy
      · exact Or.inl ⟨by simp [resolveDeps, hx, hy, some_bind, none_bind],
          by simp [resolveDeps, hx, hy, some_bind, none_bind]⟩
      · rcases ht : resolveDeps fs t with _ | ds
        · exact Or.inl ⟨by simp [resolveDeps, hx, hy, ht, some_bind, none_bind],
            by simp [resolveDeps, hx, hy, ht, some_bind, none_bind]⟩
        · exact Or.inr ⟨sy :: sx :: ds, sx :: sy :: ds,
            by simp [resolveDeps, hx, hy, ht, some_bind],
            by simp [resolveDeps, hx, hy, ht, some_bind],
            List.Perm.swap sx sy ds⟩
  | trans h1 h2 ih1 ih2 =>
    rcases ih1 with ⟨a1, a2⟩ | ⟨ds, ds', b1, b2, bp⟩
    · rcases ih2 with ⟨c1, c2⟩ | ⟨es, es', d1, d2, -⟩
      · exact Or.inl ⟨a1, c2⟩
      · rw [a2] at d1; cases d1
    · rcases ih2 with ⟨c1, c2⟩ | ⟨es, es', d1, d2, dp⟩
      · rw [b2] at c1; cases c1
      · rw [b2] at d1
        injection d1 with d1
        exact Or.inr ⟨ds, es', b1, d2, (d1 ▸ bp).trans dp⟩

lemma mergeSort_eq_of_perm {l l' : List String} (h : l.Perm l') :
    l.mergeSort = l'.mergeSort := by
  exact List.eq_of_perm_of_sorted
    ((List.mergeSort_perm l _).trans (h.trans (List.mergeSort_perm l' _).symm))
    (List.sorted_mergeSort' l) (List.sorted_mergeSort' l')

/-- C2: the resolved string of a fingerprint is the short hash of the triple
(personal, extra, sorted dependency strings); permuting the dependency list
does not change the result, and resolution is a pure function of the
fingerprint and the probed filesystem, hence stable across invocations on
the same inputs. -/
theorem fingerprint_resolve_spec (fs : FileSys) :
    (∀ extra deps personal s,
        Fingerprint.resolve fs (.mk extra deps personal) = some s ↔
          ∃ ds k, resolveDeps fs deps = some ds ∧
            Personal.resolve fs personal = some k ∧
            s = short_hash k extra ds.mergeSort) ∧
    (∀ extra personal deps deps', deps.Perm deps' →
        Fingerprint.resolve fs (.mk extra deps personal) =
          Fingerprint.resolve fs (.mk extra deps' personal)) := by
  constructor
  · intro extra deps personal s
    simp only [Fingerprint.resolve]
    rcases hd : resolveDeps fs deps with _ | ds
    · simp [none_bind]
    · simp only [some_bind]
      rcases hp : Personal.resolve fs personal with _ | k
      · simp [none_bind]
      · simp only [some_bind]
        constructor
        · intro h
          injection h with h
          exact ⟨ds, k, rfl, rfl, h.symm⟩
        · rintro ⟨ds', k', h1, h2, rfl⟩
          injection h1 with h1
          injection h2 with h2
          rw [h1, h2]
  · intro extra personal deps deps' h
    rcases resolveDeps_perm fs h with ⟨h1, h2⟩ | ⟨ds, ds', h1, h2, hp⟩
    · simp [Fingerprint.resolve, h1, h2, none_bind]
    · simp only [Fingerprint.resolve, h1, h2, some_bind]
      rw [mergeSort_eq_of_perm hp]

/-- Witness for C2 at concrete inputs: swapping two dependencies leaves the
resolved string unchanged, and a dependency-free fingerprint resolves to the
hash of its personal and extra strings. -/
theorem fingerprint_resolve_spec_witness :
    (Fingerprint.resolve ⟨fun _ => some 3, fun _ => none⟩
        (.mk "e" [.mk "a" [] (.known "x"), .mk "b" [] (.known "y")]
          (.known "k")) =
      Fingerprint.resolve ⟨fun _ => some 3, fun _ => none⟩
        (.mk "e" [.mk "b" [] (.known "y"), .mk "a" [] (.known "x")]
          (.known "k"))) ∧
    Fingerprint.resolve ⟨fun _ => some 3, fun _ => none⟩
        (.mk "e" [] (.known "k")) = some (short_hash "k" "e" []) := by
  constructor
  · exact (fingerprint_resolve_spec ⟨fun _ => some 3, fun _ => none⟩).2
      "e" (.known "k") _ _ (List.Perm.swap _ _ [])
  · exact ((fingerprint_resolve_spec ⟨fun _ => some 3, fun _ => none⟩).1
      "e" [] (.known "k") (short_hash "k" "e" [])).mpr
      ⟨[], "k", rfl, rfl, by simp⟩

/-! ### C5: the personal fingerprint component -/

lemma depStatLoop_eq_true_iff (fs : FileSys) (cwd : String) (mtime : Nat)
    (l : List String) :
    depStatLoop fs cwd mtime l = some true ↔
      ∃ files, depFiles l = some files ∧
        ∀ f ∈ files, ∃ m, fs.mtime (pathJoin cwd f) = some m ∧ m ≤ mtime := by
  induction l using depFiles.induct with
  | case1 =>
    simp [depStatLoop, depFiles]
  | case2 f hf =>
    simp [depStatLoop, depFiles, hf]
  | case3 f hf next rest' ih =>
    have e1 : depStatLoop fs cwd mtime (f :: next :: rest') =
        depStatLoop fs cwd mtime ((strDropLast f ++ " " ++ next) :: rest') := by
      rw [depStatLoop.eq_def]
      dsimp only
      rw [if_pos hf]
    have e2 : depFiles (f :: next :: rest') =
        depFiles ((strDropLast f ++ " " ++ next) :: rest') := by
      rw [depFiles.eq_def]
      dsimp only
      rw [if_pos hf]
    rw [e1, e2]
    exact ih
  | case4 f rest hf ih =>
    have e1 : depStatLoop fs cwd mtime (f :: rest) =
        (match fs.mtime (pathJoin cwd f) with
         | some m => if m ≤ mtime then depStatLoop fs cwd mtime rest
                     else some false
         | none => some false) := by
      rw [depStatLoop.eq_def]
      dsimp only
      rw [if_neg hf]
    have e2 : depFiles (f :: rest) = (depFiles rest).map (f :: ·) := by
      rw [depFiles.eq_def]
      dsimp only
      rw [if_neg hf]
    rw [e1, e2]
    rcases hm : fs.mtime (pathJoin cwd f) with _ | m <;> dsimp only
    · constructor
      · intro h; cases h
      · rintro ⟨files, hfl, hall⟩
        rcases Option.map_eq_some'.mp hfl with ⟨files', -, rfl⟩
        rcases hall f (List.mem_cons_self _ _) with ⟨m', hm', -⟩
        rw [hm] at hm'
        cases hm'
    · by_cases hle : m ≤ mtime
      · rw [if_pos hle, ih]
        constructor
        · rintro ⟨files, hfl, hall⟩
          refine ⟨f :: files, by simp [hfl], ?_⟩
          intro g hg
          rcases List.mem_cons.mp hg with rfl | hg
          · exact ⟨m, hm, hle⟩
          · exact hall g hg
        · rintro ⟨files, hfl, hall⟩
          rcases Option.map_eq_some'.mp hfl with ⟨files', hfl', rfl⟩
          exact ⟨files', hfl',
            fun g hg => hall g (List.mem_cons_of_mem _ hg)⟩
      · rw [if_neg hle]
        constructor
        · intro h; cases h
        · rintro ⟨files, hfl, hall⟩
          rcases Option.map_eq_some'.mp hfl with ⟨files', -, rfl⟩
          rcases hall f (List.mem_cons_self _ _) with ⟨m', hm', hle'⟩
          rw [hm] at hm'
          injection hm' with hm'
          exact absurd (hm' ▸ hle') hle

/-- C5: on a path source (non-doc target) the personal component is the
dep-info mtime probe — it yields a known value exactly when the dep-info file
parses and every referenced file is no newer than it, and a stale probe
leaves an unresolvable `Personal` (the dep-info is unlinked, so the deferred
stat fails); on an immutable source the personal component is the source's
pre-computed content hash and is independent of any mtime. -/
theorem calculate_personal_spec (fs : FileSys) (dep_info : String)
    (pkg_fingerprint : Except String String) :
    (∀ m, calculate_target_mtime fs dep_info = .ok (some m) ↔
      (fs.mtime dep_info = some m ∧
       ∃ info line pos files,
         fs.depinfo dep_info = some info ∧
         info.lines.head? = some line ∧
         findColonSpace line.toList = some pos ∧
         depFiles (depTokens (strDrop line (pos + 2))) = some files ∧
         ∀ f ∈ files, ∃ fm, fs.mtime (pathJoin info.cwd f) = some fm ∧
           fm ≤ m)) ∧
    (∀ m, calculate_target_mtime fs dep_info = .ok (some m) →
        calculate_personal fs false true dep_info pkg_fingerprint =
          .ok (.known (toString m), fs)) ∧
    (calculate_target_mtime fs dep_info = .ok none →
        calculate_personal fs false true dep_info pkg_fingerprint =
          .ok (.unknown dep_info, fs.unlink dep_info) ∧
        Personal.resolve (fs.unlink dep_info) (.unknown dep_info) = none) ∧
    (∀ is_doc,
        (calculate_personal fs is_doc false dep_info pkg_fingerprint).map
          Prod.fst = pkg_fingerprint.map Personal.known) := by
  refine ⟨?_, ?_, ?_, ?_⟩
  · intro m
    constructor
    · intro h
      unfold calculate_target_mtime at h
      rcases hdi : fs.depinfo dep_info with _ | info <;> rw [hdi] at h
      · simp at h
      · dsimp only at h
        rcases hline : info.lines.head? with _ | line <;> rw [hline] at h
        · simp at h
        · dsimp only at h
          rcases hmt : fs.mtime dep_info with _ | mt <;> rw [hmt] at h
          · simp at h
          · dsimp only at h
            rcases hpos : findColonSpace line.toList with _ | pos <;>
              rw [hpos] at h
            · simp at h
            · dsimp only at h
              rcases hloop : depStatLoop fs info.cwd mt
                  (depTokens (strDrop line (pos + 2))) with _ | b <;>
                rw [hloop] at h
              · simp at h
              · rcases b with _ | _
                · simp at h
                · simp only [Except.ok.injEq, Option.some.injEq] at h
                  subst h
                  obtain ⟨files, hf, hall⟩ :=
                    (depStatLoop_eq_true_iff fs info.cwd mt _).mp hloop
                  exact ⟨rfl, info, line, pos, files, rfl, hline, hpos, hf,
                    hall⟩
    · rintro ⟨hmt, info, line, pos, files, hdi, hline, hpos, hf, hall⟩
      have hloop : depStatLoop fs info.cwd m
          (depTokens (strDrop line (pos + 2))) = some true :=
        (depStatLoop_eq_true_iff fs info.cwd m _).mpr ⟨files, hf, hall⟩
      simp [calculate_target_mtime, hdi, hline, hmt, hloop,
        show findColonSpace line.data = some pos from hpos]
  · intro m h
    simp [calculate_personal, use_dep_info, h]
  · intro h
    refine ⟨by simp [calculate_personal, use_dep_info, h], ?_⟩
    simp [Personal.resolve, FileSys.unlink]
  · intro is_doc
    rcases pkg_fingerprint with e | s <;>
      simp [calculate_personal, use_dep_info, Except.map]



unseal depFiles in
lemma depFiles_witness_eval :
    depFiles (depTokens (strDrop "lib.d: a.rs" (5 + 2))) = some ["a.rs"] :=
  rfl

/-- Witness for C5 at concrete inputs: the dep-info probe succeeds (all
inputs older than the dep-info file), the personal component becomes the
dep-info mtime, and on an immutable source it is the content hash. -/
theorem calculate_personal_spec_witness :
    calculate_target_mtime fsWitness "/t/dep" = .ok (some 5) ∧
    calculate_personal fsWitness false true "/t/dep" (.ok "h") =
      .ok (.known (toString 5), fsWitness) ∧
    (calculate_personal fsWitness true false "/t/dep" (.ok "h")).map
      Prod.fst = (Except.ok "h" : Except String String).map Personal.known := by
  have h1 : calculate_target_mtime fsWitness "/t/dep" = .ok (some 5) :=
    ((calculate_personal_spec fsWitness "/t/dep" (.ok "h")).1 5).mpr
      ⟨rfl, ⟨"/c", ["lib.d: a.rs"]⟩, "lib.d: a.rs", 5, ["a.rs"], rfl, rfl, rfl,
        depFiles_witness_eval,
        by
          intro f hf
          simp only [List.mem_singleton] at hf
          subst hf
          exact ⟨3, rfl, by decide⟩⟩
  refine ⟨h1, ?_, ?_⟩
  · exact (calculate_personal_spec fsWitness "/t/dep" (.ok "h")).2.1 5 h1
  · exact (calculate_personal_spec fsWitness "/t/dep" (.ok "h")).2.2.2 true

/-! ### C6: build-script replay -/

/-- C6: when the last dirty run succeeded — its stdout parsed to `output` and
was persisted verbatim (together with the run's root in `root-output`) — the
fresh work of the next invocation inserts into the shared build state exactly
the `BuildOutput` obtained by parsing that persisted file, which equals the
one the dirty run inserted: the replayed `-L`/`-l`/`--cfg`/env/metadata
effects coincide with those of the last dirty run. -/
theorem build_script_replay (stdout : List String) (pkg_name root : String)
    (id : String) (kind : Kind) (output : BuildOutput)
    (h : BuildOutput.parse stdout pkg_name root root = .ok output) :
    (∀ state, dirtyWorkPublish stdout pkg_name root id kind state =
        .ok (state.insert id kind output, stdout)) ∧
    BuildOutput.parse_file (some stdout) pkg_name root root = .ok output ∧
    (∀ state, freshWorkPublish
        (prevOutput (some stdout) pkg_name root root)
        (some stdout) pkg_name root root id kind state =
        .ok (state.insert id kind output)) := by
  have hfile : BuildOutput.parse_file (some stdout) pkg_name root root =
      .ok output := h
  refine ⟨?_, hfile, ?_⟩
  · intro state
    simp [dirtyWorkPublish, h, Except.map]
  · intro state
    simp [freshWorkPublish, prevOutput, hfile, Except.toOption]

/-- Witness for C6 at a concrete build-script output: the replayed build
state of the fresh run equals the one the dirty run inserted. -/
theorem build_script_replay_witness :
    freshWorkPublish
        (prevOutput (some ["cargo:rustc-link-lib=z"]) "pkg" "/r" "/r")
        (some ["cargo:rustc-link-lib=z"]) "pkg" "/r" "/r" "id" .host [] =
      .ok (BuildMap.insert [] "id" .host
        { BuildOutput.empty with library_links := ["z"] }) := by
  exact (build_script_replay ["cargo:rustc-link-lib=z"] "pkg" "/r" "id" .host
    { BuildOutput.empty with library_links := ["z"] } (by rfl)).2.2 []

/-! ### C7: overridden build scripts are substituted, not run -/

/-- C7: with an override configured for the matching `(links, kind)` pair,
the `build_map` pre-pass records the unit as overridden and publishes the
override's declared `BuildOutput` under `(PackageId, kind)`, and `prepare`
then yields no-op work for both the dirty and the fresh case — the compiled
build-script binary is never executed. -/
theorem override_substitution (cx : BuildCx) (u : ScriptUnit) (l : String)
    (output : BuildOutput) (hlinks : u.links = some l)
    (hov : assoc cx.overrides (l, u.kind) = some output) :
    prepareScriptWork (buildMapOverrideStep cx u) u = (.noop, .noop) ∧
    (buildMapOverrideStep cx u).outputs.find u.pkg_id u.kind = some output ∧
    (buildMapOverrideStep cx u).build_script_overridden.contains
      (u.pkg_id, u.kind) = true := by
  have hstep : buildMapOverrideStep cx u =
      { cx with
        build_script_overridden :=
          (u.pkg_id, u.kind) :: cx.build_script_overridden,
        outputs := cx.outputs.insert u.pkg_id u.kind output } := by
    simp [buildMapOverrideStep, hlinks, hov]
  refine ⟨?_, ?_, ?_⟩
  · simp [prepareScriptWork, hstep]
  · simp [hstep, BuildMap.find, BuildMap.insert, assoc]
  · simp [hstep]

/-- Witness for C7 at a concrete override: the script work degenerates to
no-ops and the declared output is consumed from the build state. -/
theorem override_substitution_witness :
    prepareScriptWork
      (buildMapOverrideStep
        ⟨[(("l", Kind.host),
           { BuildOutput.empty with library_links := ["sub"] })], [], []⟩
        ⟨"pkg", some "l", .host⟩)
      ⟨"pkg", some "l", .host⟩ = (.noop, .noop) ∧
    (buildMapOverrideStep
        ⟨[(("l", Kind.host),
           { BuildOutput.empty with library_links := ["sub"] })], [], []⟩
        ⟨"pkg", some "l", .host⟩).outputs.find "pkg" .host =
      some { BuildOutput.empty with library_links := ["sub"] } := by
  have h := override_substitution
    ⟨[(("l", Kind.host), { BuildOutput.empty with library_links := ["sub"] })],
      [], []⟩
    ⟨"pkg", some "l", .host⟩ "l"
    { BuildOutput.empty with library_links := ["sub"] } rfl (by rfl)
  exact ⟨h.1, h.2.1⟩

/-! ### C8: interned package identifiers -/

lemma cacheFind_get {α : Type} [DecidableEq α] (c : List α) (y : α) :
    ∀ i, cacheFind c y = some i → c.get? i = some y := by
  induction c with
  | nil => intro i h; cases h
  | cons x xs ih =>
    intro i h
    simp only [cacheFind] at h
    by_cases hx : x = y
    · rw [if_pos hx] at h
      injection h with h
      subst h
      simp [hx]
    · rw [if_neg hx] at h
      rcases Option.map_eq_some'.mp h with ⟨j, hj, rfl⟩
      simpa using ih j hj

lemma cacheFind_lt_length {α : Type} [DecidableEq α] {c : List α} {y : α}
    {i : Nat} (h : cacheFind c y = some i) : i < c.length := by
  rcases List.get?_eq_some.mp (cacheFind_get c y i h) with ⟨hl, -⟩
  exact hl

lemma cacheFind_none_iff {α : Type} [DecidableEq α] (c : List α) (y : α) :
    cacheFind c y = none ↔ y ∉ c := by
  induction c with
  | nil => simp [cacheFind]
  | cons x xs ih =>
    simp only [cacheFind, List.mem_cons]
    by_cases hx : x = y
    · simp [hx]
    · rw [if_neg hx]
      simp only [Option.map_eq_none', ih]
      constructor
      · intro h hmem
        rcases hmem with rfl | hmem
        · exact hx rfl
        · exact h hmem
      · intro h hmem
        exact h (Or.inr hmem)

lemma cacheFind_mem {α : Type} [DecidableEq α] {c : List α} {y : α}
    (h : y ∈ c) : ∃ i, cacheFind c y = some i ∧ i < c.length := by
  rcases hf : cacheFind c y with _ | i
  · exact absurd h ((cacheFind_none_iff c y).mp hf)
  · exact ⟨i, rfl, cacheFind_lt_length hf⟩

lemma cacheFind_of_get {α : Type} [DecidableEq α] :
    ∀ (c : List α), c.Nodup → ∀ (i : Nat) (y : α), c.get? i = some y →
      cacheFind c y = some i := by
  intro c
  induction c with
  | nil => intro _ i y h; cases h
  | cons x xs ih =>
    intro hc i y h
    rcases i with _ | j
    · simp only [List.get?] at h
      injection h with h
      subst h
      simp [cacheFind]
    · simp only [List.get?] at h
      have hy : y ∈ xs := List.get?_mem h
      have hx : x ≠ y := fun hxy => (List.nodup_cons.mp hc).1 (hxy ▸ hy)
      simp [cacheFind, hx, ih (List.nodup_cons.mp hc).2 j y h]

lemma wrap_get (c : List PackageIdInner) (y : PackageIdInner) :
    (PackageId.wrap c y).2.get? (PackageId.wrap c y).1 = some y := by
  unfold PackageId.wrap
  rcases h : cacheFind c y with _ | i <;> dsimp only
  · simp [List.getElem?_concat_length]
  · exact cacheFind_get c y i h

lemma wrap_nodup {c : List PackageIdInner} (hc : c.Nodup)
    (y : PackageIdInner) : (PackageId.wrap c y).2.Nodup := by
  unfold PackageId.wrap
  rcases h : cacheFind c y with _ | i <;> dsimp only
  · have hy : y ∉ c := (cacheFind_none_iff c y).mp h
    simp [List.nodup_append, hc, hy, List.Disjoint]
    intro a ha hay
    exact hy (hay ▸ ha)
  · exact hc

lemma reach_nodup {c : List PackageIdInner} (h : CacheReach c) : c.Nodup := by
  induction h with
  | nil => exact List.nodup_nil
  | step c x _ ih => exact wrap_nodup ih x

/-- C8: wrapping two equal `(name, version, source-id)` triples (source-id
compared with the precise locator included) in the same process yields the
same interned instance — the second wrap allocates nothing and returns the
same pointer; dereferencing the pointer observes the original fields; and on
any reachable cache, pointer equality coincides with structural equality of
the pointed-to inner values. -/
theorem package_id_interning (c : List PackageIdInner)
    (inner₁ inner₂ : PackageIdInner) (hreach : CacheReach c)
    (heq : inner₁ = inner₂) :
    PackageId.wrap (PackageId.wrap c inner₁).2 inner₂ =
      ((PackageId.wrap c inner₁).1, (PackageId.wrap c inner₁).2) ∧
    PackageId.getInner (PackageId.wrap c inner₁).2
      (PackageId.wrap c inner₁).1 = some inner₁ ∧
    (∀ i j a b,
      PackageId.getInner (PackageId.wrap c inner₁).2 i = some a →
      PackageId.getInner (PackageId.wrap c inner₁).2 j = some b →
      (i = j ↔ a = b)) := by
  subst heq
  have hnd : (PackageId.wrap c inner₁).2.Nodup :=
    wrap_nodup (reach_nodup hreach) inner₁
  have hget := wrap_get c inner₁
  refine ⟨?_, hget, ?_⟩
  · rw [show PackageId.wrap (PackageId.wrap c inner₁).2 inner₁ =
        match cacheFind (PackageId.wrap c inner₁).2 inner₁ with
        | some i => (i, (PackageId.wrap c inner₁).2)
        | none => ((PackageId.wrap c inner₁).2.length,
            (PackageId.wrap c inner₁).2 ++ [inner₁]) from rfl]
    rw [cacheFind_of_get _ hnd _ _ hget]
  · intro i j a b ha hb
    constructor
    · rintro rfl
      rw [ha] at hb
      injection hb
    · rintro rfl
      have h1 := cacheFind_of_get _ hnd _ _ ha
      have h2 := cacheFind_of_get _ hnd _ _ hb
      rw [h1] at h2
      injection h2 with h2

/-- Witness for C8: interning the same concrete triple twice from the empty
cache returns the same index and leaves the cache unchanged. -/
theorem package_id_interning_witness :
    PackageId.wrap
        (PackageId.wrap []
          ⟨"serde", "1.0.0", ⟨"reg", "Registry", some "abc"⟩⟩).2
        ⟨"serde", "1.0.0", ⟨"reg", "Registry", some "abc"⟩⟩ =
      ((PackageId.wrap []
          ⟨"serde", "1.0.0", ⟨"reg", "Registry", some "abc"⟩⟩).1,
       (PackageId.wrap []
          ⟨"serde", "1.0.0", ⟨"reg", "Registry", some "abc"⟩⟩).2) ∧
    PackageId.getInner
        (PackageId.wrap []
          ⟨"serde", "1.0.0", ⟨"reg", "Registry", some "abc"⟩⟩).2
        (PackageId.wrap []
          ⟨"serde", "1.0.0", ⟨"reg", "Registry", some "abc"⟩⟩).1 =
      some ⟨"serde", "1.0.0", ⟨"reg", "Registry", some "abc"⟩⟩ := by
  have h := package_id_interning []
    ⟨"serde", "1.0.0", ⟨"reg", "Registry", some "abc"⟩⟩
    ⟨"serde", "1.0.0", ⟨"reg", "Registry", some "abc"⟩⟩
    CacheReach.nil rfl
  exact ⟨h.1, h.2.1⟩

/-! ### C9: unit-graph serialization -/

lemma omapM_eq_some_iff {α β : Type} (f : α → Option β) :
    ∀ (l : List α) (ys : List β),
      omapM f l = some ys ↔ List.Forall₂ (fun x y => f x = some y) l ys := by
  intro l
  induction l with
  | nil =>
    intro ys
    simp only [omapM]
    constructor
    · intro h
      injection h with h
      subst h
      exact List.Forall₂.nil
    · intro h
      cases h
      rfl
  | cons x xs ih =>
    intro ys
    simp only [omapM]
    rcases hx : f x with _ | y
    · rw [none_bind]
      constructor
      · intro h; cases h
      · intro h
        cases h with
        | cons hy htail =>
          rw [hx] at hy
          cases hy
    · rw [some_bind]
      rcases hxs : omapM f xs with _ | ys'
      · rw [none_bind]
        constructor
        · intro h; cases h
        · intro h
          cases h with
          | cons hy htail =>
            have := (ih _).mpr htail
            rw [hxs] at this
            cases this
      · rw [some_bind]
        constructor
        · intro h
          injection h with h
          subst h
          exact List.Forall₂.cons hx ((ih ys').mp hxs)
        · intro h
          cases h with
          | cons hy htail =>
            rw [hx] at hy
            injection hy with hy
            subst hy
            have := (ih _).mpr htail
            rw [hxs] at this
            injection this with this
            subst this
            rfl

lemma omapM_length {α β : Type} {f : α → Option β} {l : List α}
    {ys : List β} (h : omapM f l = some ys) : ys.length = l.length :=
  (((omapM_eq_some_iff f l ys).mp h).length_eq).symm

lemma omapM_isSome {α β : Type} (f : α → Option β) :
    ∀ l : List α, (∀ x ∈ l, ∃ y, f x = some y) →
      ∃ ys, omapM f l = some ys := by
  intro l
  induction l with
  | nil => exact fun _ => ⟨[], rfl⟩
  | cons x xs ih =>
    intro h
    obtain ⟨y, hy⟩ := h x (List.mem_cons_self _ _)
    obtain ⟨ys, hys⟩ := ih (fun z hz => h z (List.mem_cons_of_mem _ hz))
    exact ⟨y :: ys, by simp [omapM, hy, hys, some_bind]⟩

lemma omapM_mem_rel {α β : Type} {f : α → Option β} {l : List α}
    {ys : List β} (h : omapM f l = some ys) :
    ∀ y ∈ ys, ∃ x ∈ l, f x = some y := by
  have hf := (omapM_eq_some_iff f l ys).mp h
  clear h
  induction hf with
  | nil => intro y hy; simp at hy
  | cons ha _ ih =>
    intro y hy
    rcases List.mem_cons.mp hy with rfl | hy
    · exact ⟨_, List.mem_cons_self _ _, ha⟩
    · rcases ih y hy with ⟨x, hx, hfx⟩
      exact ⟨x, List.mem_cons_of_mem _ hx, hfx⟩

lemma unitPairLE_antisymm {a b : UnitG × List UnitDepG}
    (h1 : unitPairLE a b = true) (h2 : unitPairLE b a = true) : a = b := by
  simp only [unitPairLE, decide_eq_true_eq] at h1 h2
  exact toLex_inj.mp (le_antisymm h1 h2)

lemma mergeSortPairs_eq_of_perm {l l' : List (UnitG × List UnitDepG)}
    (h : l.Perm l') :
    l.mergeSort unitPairLE = l'.mergeSort unitPairLE := by
  haveI : IsAntisymm (UnitG × List UnitDepG)
      (fun a b => unitPairLE a b = true) := ⟨fun _ _ => unitPairLE_antisymm⟩
  have htrans : ∀ a b c : UnitG × List UnitDepG,
      unitPairLE a b → unitPairLE b c → unitPairLE a c := by
    intro a b c h1 h2
    simp only [unitPairLE, decide_eq_true_eq] at *
    exact le_trans h1 h2
  have htotal : ∀ a b : UnitG × List UnitDepG,
      unitPairLE a b || unitPairLE b a := by
    intro a b
    simp only [unitPairLE, Bool.or_eq_true, decide_eq_true_eq]
    exact le_total _ _
  exact List.eq_of_perm_of_sorted
    ((List.mergeSort_perm l _).trans (h.trans (List.mergeSort_perm l' _).symm))
    (List.sorted_mergeSort htrans htotal l)
    (List.sorted_mergeSort htrans htotal l')





lemma serializeUnitDep_ok (is_nightly : Bool) (idx : UnitG → Option Nat)
    (d : UnitDepG) (i n : Nat) (hi : idx d.unit = some i) (hlt : i < n) :
    ∃ j, serializeUnitDep is_nightly idx d = some j ∧ depJsonOk n j := by
  refine ⟨Json.obj ([("index", Json.nat i),
      ("extern_crate_name", Json.str d.extern_crate_name)] ++
      (if is_nightly then
        [("public", Json.bool d.public), ("noprelude", Json.bool d.noprelude)]
       else [])), ?_, ?_⟩
  · simp [serializeUnitDep, hi, some_bind]
  · refine ⟨_, rfl, ?_, ?_, ?_⟩
    · cases is_nightly <;> simp
    · cases is_nightly <;> simp
    · intro g hg hg1
      cases is_nightly <;> simp at hg
      · rcases hg with rfl | rfl
        · exact ⟨i, rfl, hlt⟩
        · simp at hg1
      · rcases hg with rfl | rfl | rfl | rfl
        · exact ⟨i, rfl, hlt⟩
        · simp at hg1
        · simp at hg1
        · simp at hg1

lemma serializeUnit_ok (u : UnitG) (deps : List Json) (n : Nat)
    (hdeps : ∀ d ∈ deps, depJsonOk n d) :
    unitJsonOk n (serializeUnit u deps) := by
  refine ⟨_, rfl, ?_, ?_⟩
  · intro name hname
    fin_cases hname <;> cases hstd : u.is_std <;> simp [serializeUnit, hstd]
  · intro g hg hg1
    cases hstd : u.is_std <;> simp [serializeUnit, hstd] at hg
    · rcases hg with rfl | rfl | rfl | rfl | rfl | rfl | rfl
      · simp at hg1
      · simp at hg1
      · simp at hg1
      · simp at hg1
      · simp at hg1
      · simp at hg1
      · exact ⟨deps, rfl, hdeps⟩
    · rcases hg with rfl | rfl | rfl | rfl | rfl | rfl | rfl | rfl
      · simp at hg1
      · simp at hg1
      · simp at hg1
      · simp at hg1
      · simp at hg1
      · simp at hg1
      · simp at hg1
      · exact ⟨deps, rfl, hdeps⟩

/-- C9: on a unit graph whose roots and dependency targets are keys of the
graph, `emit_serialized_unit_graph` produces a single document whose top
level is exactly `{version: 1, units, roots}`; `units` has one entry per
graph key, each containing the `pkg_id`/`target`/`profile`/`platform`/
`mode`/`features`/`dependencies` fields; every root entry and every
dependency `index` is a valid index into `units`; and any iteration order of
the same graph (any permutation of its entry list) serializes to the same
document, because entries are sorted before emission. -/
theorem emit_serialized_unit_graph_spec (root_units : List UnitG)
    (unit_graph : List (UnitG × List UnitDepG)) (is_nightly : Bool)
    (hroots : ∀ u ∈ root_units, u ∈ unit_graph.map Prod.fst)
    (hdeps : ∀ p ∈ unit_graph, ∀ d ∈ p.2, d.unit ∈ unit_graph.map Prod.fst) :
    (∃ (us : List Json) (rs : List Nat),
      emit_serialized_unit_graph root_units unit_graph is_nightly =
        some (Json.obj [("version", Json.nat 1), ("units", Json.arr us),
                        ("roots", Json.arr (rs.map Json.nat))]) ∧
      us.length = unit_graph.length ∧
      (∀ i ∈ rs, i < us.length) ∧
      (∀ u ∈ us, unitJsonOk us.length u)) ∧
    (∀ g', unit_graph.Perm g' →
      emit_serialized_unit_graph root_units g' is_nightly =
        emit_serialized_unit_graph root_units unit_graph is_nightly) := by
  constructor
  · have hperm : (unit_graph.mergeSort unitPairLE).Perm unit_graph :=
      List.mergeSort_perm unit_graph unitPairLE
    have hkeys : ((unit_graph.mergeSort unitPairLE).map Prod.fst).Perm
        (unit_graph.map Prod.fst) := hperm.map Prod.fst
    have hklen : ((unit_graph.mergeSort unitPairLE).map Prod.fst).length =
        unit_graph.length := by
      rw [List.length_map]
      exact hperm.length_eq
    obtain ⟨rs, hrs⟩ := omapM_isSome
      (fun u => cacheFind ((unit_graph.mergeSort unitPairLE).map Prod.fst) u)
      root_units
      (fun u hu => by
        obtain ⟨i, hi, -⟩ :=
          cacheFind_mem (hkeys.mem_iff.mpr (hroots u hu))
        exact ⟨i, hi⟩)
    obtain ⟨us, hus⟩ := omapM_isSome
      (fun p => do
        let deps ← omapM (serializeUnitDep is_nightly
          (fun u => cacheFind
            ((unit_graph.mergeSort unitPairLE).map Prod.fst) u)) p.2
        some (serializeUnit p.1 deps))
      (unit_graph.mergeSort unitPairLE)
      (fun p hp => by
        obtain ⟨deps, hdeps'⟩ := omapM_isSome _ p.2 (fun d hd => by
          obtain ⟨i, hi, hlt⟩ := cacheFind_mem
            (hkeys.mem_iff.mpr (hdeps p (hperm.subset hp) d hd))
          obtain ⟨j, hj, -⟩ := serializeUnitDep_ok is_nightly _ d i
            ((unit_graph.mergeSort unitPairLE).map Prod.fst).length hi hlt
          exact ⟨j, hj⟩)
        exact ⟨serializeUnit p.1 deps, by simp [hdeps', some_bind]⟩)
    have huslen : us.length = unit_graph.length := by
      rw [omapM_length hus, ← hklen, List.length_map]
    refine ⟨us, rs, ?_, huslen, ?_, ?_⟩
    · simp only [emit_serialized_unit_graph, VERSION]
      rw [hrs, some_bind, hus, some_bind]
    · intro i hi
      obtain ⟨u, -, hu⟩ := omapM_mem_rel hrs i hi
      have := cacheFind_lt_length hu
      rw [hklen] at this
      rw [huslen]
      exact this
    · intro u hu
      obtain ⟨p, hp, hpu⟩ := omapM_mem_rel hus u hu
      rcases hod : omapM (serializeUnitDep is_nightly
          (fun v => cacheFind
            ((unit_graph.mergeSort unitPairLE).map Prod.fst) v)) p.2
          with _ | sdeps <;> rw [hod] at hpu
      · rw [none_bind] at hpu
        cases hpu
      · rw [some_bind] at hpu
        injection hpu with hpu
        subst hpu
        refine serializeUnit_ok p.1 sdeps us.length ?_
        intro d hd
        obtain ⟨dep, hdep, hser⟩ := omapM_mem_rel hod d hd
        obtain ⟨i, hi, hlt⟩ := cacheFind_mem
          (hkeys.mem_iff.mpr (hdeps p (hperm.subset hp) dep hdep))
        obtain ⟨j, hj, hjok⟩ := serializeUnitDep_ok is_nightly _ dep i
          us.length hi (by rw [huslen, ← hklen] at *; exact hlt)
        rw [hser] at hj
        injection hj with hj
        subst hj
        exact hjok
  · intro g' hperm'
    simp only [emit_serialized_unit_graph,
      mergeSortPairs_eq_of_perm hperm'.symm]

/-- Witness for C9 on a concrete two-unit graph: the document exists with
valid indices, and both iteration orders of the map serialize identically. -/
theorem emit_serialized_unit_graph_spec_witness :
    (∃ (us : List Json) (rs : List Nat),
      emit_serialized_unit_graph
          [⟨"a 0.1.0", "lib", "dev", "host", "build", [], false⟩]
          [(⟨"a 0.1.0", "lib", "dev", "host", "build", [], false⟩,
            [⟨⟨"b 0.1.0", "lib", "dev", "host", "build", ["f"], false⟩,
              "b", false, false⟩]),
           (⟨"b 0.1.0", "lib", "dev", "host", "build", ["f"], false⟩, [])]
          false =
        some (Json.obj [("version", Json.nat 1), ("units", Json.arr us),
                        ("roots", Json.arr (rs.map Json.nat))]) ∧
      us.length = 2 ∧ (∀ i ∈ rs, i < us.length) ∧
      (∀ u ∈ us, unitJsonOk us.length u)) ∧
    emit_serialized_unit_graph
        [⟨"a 0.1.0", "lib", "dev", "host", "build", [], false⟩]
        [(⟨"b 0.1.0", "lib", "dev", "host", "build", ["f"], false⟩, []),
         (⟨"a 0.1.0", "lib", "dev", "host", "build", [], false⟩,
           [⟨⟨"b 0.1.0", "lib", "dev", "host", "build", ["f"], false⟩,
             "b", false, false⟩])]
        false =
      emit_serialized_unit_graph
        [⟨"a 0.1.0", "lib", "dev", "host", "build", [], false⟩]
        [(⟨"a 0.1.0", "lib", "dev", "host", "build", [], false⟩,
           [⟨⟨"b 0.1.0", "lib", "dev", "host", "build", ["f"], false⟩,
             "b", false, false⟩]),
         (⟨"b 0.1.0", "lib", "dev", "host", "build", ["f"], false⟩, [])]
        false := by
  have h := emit_serialized_unit_graph_spec
    [⟨"a 0.1.0", "lib", "dev", "host", "build", [], false⟩]
    [(⟨"a 0.1.0", "lib", "dev", "host", "build", [], false⟩,
      [⟨⟨"b 0.1.0", "lib", "dev", "host", "build", ["f"], false⟩,
        "b", false, false⟩]),
     (⟨"b 0.1.0", "lib", "dev", "host", "build", ["f"], false⟩, [])]
    false (by decide) (by decide)
  exact ⟨h.1, h.2 _ (List.Perm.swap _ _ [])⟩

end Cargo
